import Mathlib

/-!
# Radix set (`trie.go`): a shallow embedding and its properties

`Set` is a compressed prefix tree storing a multiset of byte strings. Every node
carries a `children` map from edge label to child node and a `count`.

Modelling choices.
* Go strings are byte sequences: `Str := List UInt8`; `s[:i]` is `List.take i`,
  `s[i:]` is `List.drop i`, `len` is `List.length`.
* A Go `map[string]*Set` is an association list. The order in which `range`
  visits a map is unspecified in Go, so every function that ranges over a map
  takes an `Order`: a function that rearranges the entries before the loop
  runs. It receives the remaining string as well, so the arrangement may
  differ at every node of one descent. Results are stated for every
  `Order` that is a rearrangement (`Order.Valid`).
* Pointer mutation of a child is written back under the child's key; nodes are
  not shared between parents in the source.
* Every recursive call is on a strictly shorter string. The recursive
  functions take a fuel argument and return `none` when it runs out; the
  entry points supply `len(s) + 1`.
* `count` is a Go `int`, taken to be 64 bits wide: a value in
  `[minInt, maxInt]` stored in an `Int`. The increment `a.count++` of `Insert`
  wraps around (`wrapInt`). The decrement `a.count--` of `remove` runs only
  under the guard `a.count > 0`, where it cannot leave the range.
-/

namespace Trie

/-- Go `string`: a sequence of bytes. -/
abbrev Str := List UInt8

/-- Transcription of `type Set struct { children map[string]*Set; count int }`. -/
inductive Set where
  | mk (children : List (Str × Set)) (count : Int) : Set

/-- Field `children`. -/
def Set.children : Set → List (Str × Set)
  | .mk c _ => c

/-- Field `count`; also the method `Count()`. A Go `int` holds a value in
`[minInt, maxInt]`. -/
def Set.count : Set → Int
  | .mk _ n => n

/-- Largest Go `int` (64 bits): `2^63 - 1`. -/
def maxInt : Int := 9223372036854775807

/-- Smallest Go `int` (64 bits): `-2^63`. -/
def minInt : Int := -9223372036854775808

/-- Two's-complement wrap-around of a result of `int` arithmetic: the
representative of `x` modulo `2^64` in `[minInt, maxInt]`. -/
def wrapInt (x : Int) : Int :=
  (x + 9223372036854775808) % 18446744073709551616 - 9223372036854775808

/-- The zero value `&Set{}`: nil map, count 0. -/
def Set.zero : Set := .mk [] 0

/-- Method `empty`: `len(a.children) == 0 && a.count == 0`. -/
def Set.empty (a : Set) : Bool :=
  a.children.length == 0 && a.count == 0

/-- An iteration order for `range` over a children map: given the string
being processed and the entries, the sequence in which they are visited. -/
abbrev Order := Str → List (Str × Set) → List (Str × Set)

/-- An order is valid when it only rearranges the entries. -/
def Order.Valid (ord : Order) : Prop :=
  ∀ s l, (ord s l).Perm l

/-- The order that visits entries as stored. -/
def Order.stored : Order := fun _ l => l

/-- The order that visits entries in reverse. -/
def Order.reversed : Order := fun _ l => l.reverse

/-- Map read `m[key]` with the `ok` flag. -/
def getChild (m : List (Str × Set)) (key : Str) : Option Set :=
  (m.find? (fun pc => pc.1 = key)).map (fun pc => pc.2)

/-- Map write `m[key] = child` (the body of `putChild`; a nil map is the
empty list, so the allocation is invisible). Also used to write back a child
that was mutated through its pointer. -/
def putChild (m : List (Str × Set)) (key : Str) (child : Set) : List (Str × Set) :=
  if m.any (fun pc => pc.1 = key) then
    m.map (fun pc => if pc.1 = key then (key, child) else pc)
  else
    m ++ [(key, child)]

/-- Builtin `delete(m, key)`. -/
def deleteChild (m : List (Str × Set)) (key : Str) : List (Str × Set) :=
  m.filter (fun pc => pc.1 ≠ key)

/-- Function `prefixLen`: equal strings give the length; otherwise the first
index below `min(len(s1), len(s2))` at which the bytes differ, or that
minimum. -/
def prefixLen (s1 s2 : Str) : Nat :=
  if s1 = s2 then s1.length
  else
    let n := if s2.length < s1.length then s2.length else s1.length
    ((List.range n).find? (fun i => s1[i]? ≠ s2[i]?)).getD n

/-- The loop `for i := len(s); i > 0; i--` probing `m[s[:i]]`: the first hit,
longest prefix first, with its index. -/
def probeDown (m : List (Str × Set)) (s : Str) : Option (Nat × Set) :=
  (List.iota s.length).findSome? (fun i => (getChild m (s.take i)).map (fun c => (i, c)))

/-- The loop `for i := 1; i <= len(s); i++` probing `m[s[:i]]`: the first hit,
shortest prefix first, with its index. -/
def probeUp (m : List (Str × Set)) (s : Str) : Option (Nat × Set) :=
  (List.range' 1 s.length).findSome? (fun i => (getChild m (s.take i)).map (fun c => (i, c)))

/-- Recursion of `containsAtLeast`. Note that both recursive calls are
`child.Contains`, that is threshold 1. -/
def containsAux (ord : Order) : Nat → Set → Str → Int → Option Bool
  | 0, _, _, _ => none
  | fuel + 1, a, s, n =>
    if s = [] then some (decide (a.count ≥ n))
    else
      match (if s.length < a.children.length then probeDown a.children s else none) with
      | some (i, child) => containsAux ord fuel child (s.drop i) 1
      | none =>
        match (ord s a.children).find? (fun pc => 0 < prefixLen pc.1 s) with
        | some (pre, child) => containsAux ord fuel child (s.drop (prefixLen pre s)) 1
        | none => some false

/-- Method `containsAtLeast`. -/
def containsAtLeast (ord : Order) (a : Set) (s : Str) (n : Int) : Option Bool :=
  containsAux ord (s.length + 1) a s n

/-- Method `Contains`. -/
def Contains (ord : Order) (a : Set) (s : Str) : Option Bool :=
  containsAtLeast ord a s 1

/-- Recursion of `Insert`; the result is the receiver after the call (the
returned pointer to the terminal node is not part of the model). The
increment `a.count++` wraps around at `maxInt`. -/
def insertAux (ord : Order) : Nat → Set → Str → Option Set
  | 0, _, _ => none
  | fuel + 1, a, s =>
    if s = [] then some (.mk a.children (wrapInt (a.count + 1)))
    else if s.length < a.children.length then
      match probeDown a.children s with
      | some (i, child) =>
        (insertAux ord fuel child (s.drop i)).map
          (fun c => .mk (putChild a.children (s.take i) c) a.count)
      | none => some (.mk (putChild a.children s (.mk [] 1)) a.count)
    else
      match (ord s a.children).find? (fun pc => 0 < prefixLen s pc.1) with
      | none => some (.mk (putChild a.children s (.mk [] 1)) a.count)
      | some (maxPrefix, maxChild) =>
        let maxPrefixLen := prefixLen s maxPrefix
        if maxPrefixLen < maxPrefix.length then
          let newPrefix := maxPrefix.take maxPrefixLen
          let newPostfix := maxPrefix.drop maxPrefixLen
          let child : Set := .mk (putChild [] newPostfix maxChild) 0
          let m := putChild (deleteChild a.children maxPrefix) newPrefix child
          (insertAux ord fuel child (s.drop maxPrefixLen)).map
            (fun c => .mk (putChild m newPrefix c) a.count)
        else
          (insertAux ord fuel maxChild (s.drop maxPrefixLen)).map
            (fun c => .mk (putChild a.children maxPrefix c) a.count)

/-- Method `Insert`. -/
def Insert (ord : Order) (a : Set) (s : Str) : Option Set :=
  insertAux ord (s.length + 1) a s

/-- Outcome of `remove`: the receiver after the call, the returned pointer
`old` (`none` is nil), and whether the call ran its `deleteSelfFn`. -/
structure Removed where
  node : Set
  old : Option Set
  detached : Bool

/-- Recursion of `remove`. The closure handed to the child deletes the child's
edge from `a.children`; it runs exactly when the child reports `detached`.
The decrement `a.count--` is guarded by `a.count > 0`, so on an `int` it
yields `a.count - 1` without wrapping. -/
def removeAux (ord : Order) : Nat → Set → Str → Option Removed
  | 0, _, _ => none
  | fuel + 1, a, s =>
    if s = [] then
      if a.count > 0 then
        let a1 : Set := .mk a.children (a.count - 1)
        if a1.empty then some ⟨a1, some a1, true⟩ else some ⟨a1, none, false⟩
      else some ⟨a, none, false⟩
    else if s.length < a.children.length then
      match probeUp a.children s with
      | some (i, child) =>
        (removeAux ord fuel child (s.drop i)).map (fun r =>
          ⟨.mk (if r.detached then deleteChild a.children (s.take i)
                else putChild a.children (s.take i) r.node) a.count, r.old, false⟩)
      | none => some ⟨a, none, false⟩
    else
      match (ord s a.children).find? (fun pc => 0 < prefixLen pc.1 s) with
      | some (pre, child) =>
        (removeAux ord fuel child (s.drop (prefixLen pre s))).map (fun r =>
          ⟨.mk (if r.detached then deleteChild a.children pre
                else putChild a.children pre r.node) a.count, r.old, false⟩)
      | none => some ⟨a, none, false⟩

/-- Method `Remove`: `remove` with a `deleteSelfFn` that does nothing. -/
def Remove (ord : Order) (a : Set) (s : Str) : Option Removed :=
  removeAux ord (s.length + 1) a s

/-- Longest chain of edges below a node, plus one; the recursion depth of
`Merge` on `other`. -/
def Set.height : Set → Nat
  | .mk children _ => heightList children + 1
where
  /-- The largest height among the children. -/
  heightList : List (Str × Set) → Nat
    | [] => 0
    | (_, c) :: rest => max c.height (heightList rest)

/-- Recursion of `Merge`. A nil receiver or argument is `none` in the inner
`Option`; the outer `Option` is the fuel. The loop body
`a.children[prefix].Merge(child)` reads the map (nil when the key is absent),
recurses, and the receiver's child, if any, is written back. -/
def mergeAux (ord : Order) : Nat → Option Set → Option Set → Option (Option Set)
  | 0, _, _ => none
  | fuel + 1, a, other =>
    match a, other with
    | none, _ => some none
    | some a, none => some (some a)
    | some a, some o =>
      ((ord [] o.children).foldl
        (fun (acc : Option Set) pc =>
          acc.bind (fun cur =>
            (mergeAux ord fuel (getChild cur.children pc.1) (some pc.2)).map
              (fun r =>
                match r with
                | some c => .mk (putChild cur.children pc.1 c) cur.count
                | none => cur)))
        (some a)).map some

/-- Method `Merge`; the result is the receiver after the call. -/
def Merge (ord : Order) (a other : Option Set) : Option (Option Set) :=
  mergeAux ord ((other.map Set.height).getD 0 + 1) a other

/-- An API call on the root. -/
inductive Op where
  | insert (s : Str)
  | remove (s : Str)

/-- One API call on the root, under a given iteration order. -/
def step (ord : Order) (a : Set) : Op → Option Set
  | .insert s => Insert ord a s
  | .remove s => (Remove ord a s).map (fun r => r.node)

/-- A sequence of API calls, each with its own iteration order. -/
def run (a : Set) : List (Order × Op) → Option Set
  | [] => some a
  | (ord, op) :: rest => (step ord a op).bind (fun a1 => run a1 rest)

/-- A sequence of API calls under one iteration order. -/
def runWith (ord : Order) (a : Set) (ops : List Op) : Option Set :=
  run a (ops.map (fun op => (ord, op)))

/-- The bytes of a string literal (UTF-8, as in Go source). -/
def bytes (s : String) : Str := s.toUTF8.data.toList

/-! ### Observations on a tree -/

/-- The edge labels of one node do not overlap: no two entries share a
non-empty common prefix. -/
def siblingsOK (m : List (Str × Set)) : Prop :=
  m.Pairwise (fun p q => prefixLen p.1 q.1 = 0)

instance (m : List (Str × Set)) : Decidable (siblingsOK m) := by
  unfold siblingsOK; infer_instance

/-- Invariant 1 at every node of the tree. -/
def Set.inv1 : Set → Bool
  | .mk children _ => decide (siblingsOK children) && inv1List children
where
  /-- Invariant 1 in every subtree of a children map. -/
  inv1List : List (Str × Set) → Bool
    | [] => true
    | (_, c) :: rest => c.inv1 && inv1List rest

/-- Every edge label in the tree is non-empty. -/
def Set.labelsNonEmpty : Set → Bool
  | .mk children _ => labelsList children
where
  /-- Every edge label in a children map and below is non-empty. -/
  labelsList : List (Str × Set) → Bool
    | [] => true
    | (k, c) :: rest => decide (k ≠ []) && c.labelsNonEmpty && labelsList rest

/-- Invariant 2 below the root: no node other than the root is empty. -/
def Set.noEmptyBelow : Set → Bool
  | .mk children _ => noEmptyList children
where
  /-- No child is empty, nor any node below a child. -/
  noEmptyList : List (Str × Set) → Bool
    | [] => true
    | (_, c) :: rest => !c.empty && c.noEmptyBelow && noEmptyList rest

/-- Multiplicity of `t` in the multiset the tree represents: the sum of the
counts of the nodes whose root path (concatenation of edge labels) is `t`. -/
def Set.mult : Set → Str → Int
  | .mk children count, t => (if t = [] then count else 0) + multList children t
where
  /-- Contribution of the subtrees of a children map. -/
  multList : List (Str × Set) → Str → Int
    | [], _ => 0
    | (k, c) :: rest, t =>
      (if k <+: t then c.mult (t.drop k.length) else 0) + multList rest t

/-- The node reached from the root along a sequence of edge labels. -/
def Set.nodeAt (a : Set) : List Str → Option Set
  | [] => some a
  | k :: ks => (getChild a.children k).bind (fun c => c.nodeAt ks)

/-- The data model's range for `count`: no node has a negative count. -/
def Set.countsNonneg : Set → Bool
  | .mk children count => decide (0 ≤ count) && nonnegList children
where
  /-- No negative count in any subtree of a children map. -/
  nonnegList : List (Str × Set) → Bool
    | [] => true
    | (_, c) :: rest => c.countsNonneg && nonnegList rest

/-- The entry `(k, c)` is the only entry of `m` whose label overlaps `s`. -/
def OnlyMatch (m : List (Str × Set)) (s k : Str) (c : Set) : Prop :=
  (k, c) ∈ m ∧ ∀ x ∈ m, 0 < prefixLen x.1 s → x = (k, c)

/-- Reference lookup for the fast/slow comparison: `containsAtLeast` with the
substring-probe branch (lines 23-29) left out, so that every node is searched
by the range loop with `prefixLen` (lines 31-35) only. -/
def scanContainsAux (ord : Order) : Nat → Set → Str → Int → Option Bool
  | 0, _, _, _ => none
  | fuel + 1, a, s, n =>
    if s = [] then some (decide (a.count ≥ n))
    else
      match (ord s a.children).find? (fun pc => 0 < prefixLen pc.1 s) with
      | some (pre, child) => scanContainsAux ord fuel child (s.drop (prefixLen pre s)) 1
      | none => some false

/-- Reference lookup, entry point. -/
def scanContainsAtLeast (ord : Order) (a : Set) (s : Str) (n : Int) : Option Bool :=
  scanContainsAux ord (s.length + 1) a s n

/-- The linear-scan branch of `Insert` (lines 72-102) run on the receiver for a
non-empty `s`, whatever the number of children; the recursive call at line 102
is the full `Insert`. -/
def scanInsert (ord : Order) (a : Set) (s : Str) : Option Set :=
  match (ord s a.children).find? (fun pc => 0 < prefixLen s pc.1) with
  | none => some (.mk (putChild a.children s (.mk [] 1)) a.count)
  | some (maxPrefix, maxChild) =>
    let maxPrefixLen := prefixLen s maxPrefix
    if maxPrefixLen < maxPrefix.length then
      let newPrefix := maxPrefix.take maxPrefixLen
      let newPostfix := maxPrefix.drop maxPrefixLen
      let child : Set := .mk (putChild [] newPostfix maxChild) 0
      let m := putChild (deleteChild a.children maxPrefix) newPrefix child
      (insertAux ord s.length child (s.drop maxPrefixLen)).map
        (fun c => .mk (putChild m newPrefix c) a.count)
    else
      (insertAux ord s.length maxChild (s.drop maxPrefixLen)).map
        (fun c => .mk (putChild a.children maxPrefix c) a.count)

/-- An API call on the root, `Merge` included; the argument of `Merge` may
be nil. -/
inductive Call where
  | insert (s : Str)
  | remove (s : Str)
  | merge (other : Option Set)

/-- One API call on the root, under a given iteration order. -/
def stepCall (ord : Order) (a : Set) : Call → Option Set
  | .insert s => Insert ord a s
  | .remove s => (Remove ord a s).map (fun r => r.node)
  | .merge other => (Merge ord (some a) other).map (fun r => r.getD a)

/-- A sequence of API calls with `Merge`, each with its own iteration order. -/
def runCalls (a : Set) : List (Order × Call) → Option Set
  | [] => some a
  | (ord, c) :: rest => (stepCall ord a c).bind (fun a1 => runCalls a1 rest)

/-- Number of nodes of the tree, the root included. -/
def Set.size : Set → Nat
  | .mk children _ => sizeList children + 1
where
  /-- Number of nodes in the subtrees of a children map. -/
  sizeList : List (Str × Set) → Nat
    | [] => 0
    | (_, c) :: rest => c.size + sizeList rest

/-- The association lists stand for Go maps: at every node the keys are
pairwise distinct. -/
def Set.keysDistinct : Set → Bool
  | .mk children _ => decide ((children.map Prod.fst).Nodup) && distinctList children
where
  /-- Distinct keys in every subtree of a children map. -/
  distinctList : List (Str × Set) → Bool
    | [] => true
    | (_, c) :: rest => c.keysDistinct && distinctList rest

/-- Every node whose root path, the concatenation of the edge labels leading
to it, is `s` holds a count `c` with `lo ≤ c < hi`. -/
def Set.countsAt (a : Set) (s : Str) (lo hi : Int) : Prop :=
  ∀ ks nd, a.nodeAt ks = some nd → ks.flatten = s → lo ≤ nd.count ∧ nd.count < hi

/-- Every count `c` in the tree satisfies `lo ≤ c < hi`. -/
def Set.countsWithin (lo hi : Int) : Set → Bool
  | .mk children count => decide (lo ≤ count) && decide (count < hi) && withinList lo hi children
where
  /-- Counts within the bounds in every subtree of a children map. -/
  withinList (lo hi : Int) : List (Str × Set) → Bool
    | [] => true
    | (_, c) :: rest => c.countsWithin lo hi && withinList lo hi rest

/-- Whether a call is an `Insert`. -/
def Call.isInsert : Call → Bool
  | .insert _ => true
  | _ => false

/-! ## Lemmas -/



theorem firstDiff_succ (n : Nat) (p : Nat → Bool) :
    ((List.range (n + 1)).find? p).getD (n + 1)
      = if p 0 then 0 else ((List.range n).find? (fun i => p (i + 1))).getD n + 1 := by
  rw [List.range_succ_eq_map, List.find?_cons]
  by_cases h0 : p 0
  · simp [h0]
  · simp only [h0, Bool.false_eq_true, if_false]
    rw [List.find?_map]
    cases h : (List.range n).find? (p ∘ Nat.succ) with
    | none =>
      have : (List.range n).find? (fun i => p (i + 1)) = none := h
      simp [this]
    | some i =>
      have : (List.range n).find? (fun i => p (i + 1)) = some i := h
      simp [this]

theorem prefixLen_nil_left (s : Str) : prefixLen [] s = 0 := by
  unfold prefixLen
  by_cases h : ([] : Str) = s
  · simp [h]
  · simp [h]

theorem prefixLen_nil_right (s : Str) : prefixLen s [] = 0 := by
  unfold prefixLen
  by_cases h : s = []
  · simp [h]
  · have hl : 0 < s.length := List.length_pos.mpr h
    simp [h, hl]

theorem prefixLen_self (s : Str) : prefixLen s s = s.length := by
  simp [prefixLen]

theorem prefixLen_cons (a b : UInt8) (s1 s2 : Str) :
    prefixLen (a :: s1) (b :: s2) = if a = b then prefixLen s1 s2 + 1 else 0 := by
  by_cases hab : a = b
  · subst hab
    by_cases hs : s1 = s2
    · subst hs; simp [prefixLen_self]
    · have hne : ¬ (a :: s1 = a :: s2) := by simpa using hs
      simp only [prefixLen, hne, hs, if_false, if_true, List.length_cons]
      have hn : (if s2.length + 1 < s1.length + 1 then s2.length + 1 else s1.length + 1)
          = (if s2.length < s1.length then s2.length else s1.length) + 1 := by
        split_ifs <;> omega
      rw [hn, firstDiff_succ]
      simp
  · have hne : ¬ (a :: s1 = b :: s2) := by
      intro h; exact hab (List.cons.inj h).1
    simp only [prefixLen, hne, hab, if_false, List.length_cons]
    have hn : (if s2.length + 1 < s1.length + 1 then s2.length + 1 else s1.length + 1)
        = (if s2.length < s1.length then s2.length else s1.length) + 1 := by
      split_ifs <;> omega
    rw [hn, firstDiff_succ]
    simp [hab]



theorem prefixLen_comm (s1 s2 : Str) : prefixLen s1 s2 = prefixLen s2 s1 := by
  induction s1 generalizing s2 with
  | nil => rw [prefixLen_nil_left, prefixLen_nil_right]
  | cons a t ih =>
    cases s2 with
    | nil => rw [prefixLen_nil_left, prefixLen_nil_right]
    | cons b u =>
      rw [prefixLen_cons, prefixLen_cons, ih u]
      by_cases h : a = b
      · subst h; simp
      · have h2 : ¬ b = a := fun e => h e.symm
        simp [h, h2]

theorem prefixLen_pos_iff (s1 s2 : Str) :
    0 < prefixLen s1 s2 ↔ ∃ a t1 t2, s1 = a :: t1 ∧ s2 = a :: t2 := by
  cases s1 with
  | nil => simp [prefixLen_nil_left]
  | cons a t =>
    cases s2 with
    | nil => simp [prefixLen_nil_right]
    | cons b u =>
      rw [prefixLen_cons]
      by_cases h : a = b
      · subst h; simp
      · simp only [h, if_false, Nat.lt_irrefl, false_iff]
        rintro ⟨c, t1, t2, h1, h2⟩
        exact h ((List.cons.inj h1).1.trans (List.cons.inj h2).1.symm)

theorem prefixLen_le_left (s1 s2 : Str) : prefixLen s1 s2 ≤ s1.length := by
  induction s1 generalizing s2 with
  | nil => simp [prefixLen_nil_left]
  | cons a t ih =>
    cases s2 with
    | nil => simp [prefixLen_nil_right]
    | cons b u =>
      rw [prefixLen_cons]
      have := ih u
      split_ifs <;> simp; omega

theorem prefixLen_le_right (s1 s2 : Str) : prefixLen s1 s2 ≤ s2.length := by
  rw [prefixLen_comm]; exact prefixLen_le_left s2 s1

theorem take_prefixLen (s1 s2 : Str) :
    s1.take (prefixLen s1 s2) = s2.take (prefixLen s1 s2) := by
  induction s1 generalizing s2 with
  | nil => simp [prefixLen_nil_left]
  | cons a t ih =>
    cases s2 with
    | nil => simp [prefixLen_nil_right]
    | cons b u =>
      rw [prefixLen_cons]
      by_cases h : a = b
      · subst h; simp [ih u]
      · simp [h]

theorem prefixLen_eq_length_iff (k s : Str) : prefixLen k s = k.length ↔ k <+: s := by
  induction k generalizing s with
  | nil => simp [prefixLen_nil_left]
  | cons a t ih =>
    cases s with
    | nil => simp [prefixLen_nil_right]
    | cons b u =>
      rw [prefixLen_cons, List.cons_prefix_cons]
      by_cases h : a = b
      · subst h; simp [ih u]
      · simp [h]

theorem prefixLen_of_initial {k s : Str} (h : k <+: s) : prefixLen k s = k.length :=
  (prefixLen_eq_length_iff k s).mpr h

/-- Two labels that both overlap `s` overlap each other. -/
theorem prefixLen_pos_trans {k1 k2 s : Str} (h1 : 0 < prefixLen k1 s)
    (h2 : 0 < prefixLen k2 s) : 0 < prefixLen k1 k2 := by
  obtain ⟨a, t1, u1, e1, e2⟩ := (prefixLen_pos_iff _ _).mp h1
  obtain ⟨b, t2, u2, e3, e4⟩ := (prefixLen_pos_iff _ _).mp h2
  have hab : a = b := by
    rw [e2] at e4; exact (List.cons.inj e4).1
  subst hab
  exact (prefixLen_pos_iff _ _).mpr ⟨a, t1, t2, e1, e3⟩

theorem take_prefixLen_initial (s p : Str) : p.take (prefixLen s p) <+: s := by
  rw [← take_prefixLen s p]; exact List.take_prefix _ _

theorem prefixLen_take_eq {k s : Str} {i : Nat} (hk : k = s.take i)
    (hs : i ≤ s.length) : prefixLen k s = i := by
  have hp : k <+: s := hk ▸ List.take_prefix _ _
  rw [prefixLen_of_initial hp, hk, List.length_take]; omega

/-! ### Further facts about `prefixLen` -/

theorem le_prefixLen_of_take_eq (s1 s2 : Str) (k : Nat) (h1 : k ≤ s1.length)
    (h2 : k ≤ s2.length) (h : s1.take k = s2.take k) : k ≤ prefixLen s1 s2 := by
  induction s1 generalizing s2 k with
  | nil => simp at h1; omega
  | cons a t ih =>
    cases s2 with
    | nil => simp at h2; omega
    | cons b u =>
      cases k with
      | zero => omega
      | succ k =>
        simp only [List.take_succ_cons, List.cons.injEq] at h
        simp only [List.length_cons] at h1 h2
        rw [prefixLen_cons, if_pos h.1]
        have := ih u k (by omega) (by omega) h.2
        omega

theorem prefixLen_drop_drop (s p : Str) :
    prefixLen (s.drop (prefixLen s p)) (p.drop (prefixLen s p)) = 0 := by
  induction s generalizing p with
  | nil => simp [prefixLen_nil_left]
  | cons a t ih =>
    cases p with
    | nil => simp [prefixLen_nil_right]
    | cons b u =>
      rw [prefixLen_cons]
      by_cases h : a = b
      · simp only [h, if_true, List.drop_succ_cons]; exact ih u
      · simp only [h, if_false, List.drop_zero]
        rw [prefixLen_cons, if_neg h]

/-! ### The children map -/

theorem mem_of_getChild {m : List (Str × Set)} {k : Str} {c : Set}
    (h : getChild m k = some c) : (k, c) ∈ m := by
  unfold getChild at h
  cases hf : m.find? (fun pc => decide (pc.1 = k)) with
  | none => simp [hf] at h
  | some pc =>
    simp [hf] at h
    have hp := List.find?_some hf
    have hm := List.mem_of_find?_eq_some hf
    have hk : pc.1 = k := by simpa using hp
    have : pc = (k, c) := by
      cases pc; simp at hk h; simp [hk, h]
    exact this ▸ hm

theorem getChild_eq_none_iff {m : List (Str × Set)} {k : Str} :
    getChild m k = none ↔ ∀ pc ∈ m, pc.1 ≠ k := by
  unfold getChild
  simp [List.find?_eq_none]

theorem getChild_isSome_of_mem {m : List (Str × Set)} {k : Str} {c : Set}
    (h : (k, c) ∈ m) : ∃ c1, getChild m k = some c1 := by
  cases hg : getChild m k with
  | none => exact absurd rfl (getChild_eq_none_iff.mp hg _ h)
  | some c1 => exact ⟨c1, rfl⟩

theorem getChild_cons (pc : Str × Set) (m : List (Str × Set)) (k : Str) :
    getChild (pc :: m) k = if pc.1 = k then some pc.2 else getChild m k := by
  unfold getChild
  by_cases h : pc.1 = k <;> simp [List.find?_cons, h]

theorem getChild_putChild_self (m : List (Str × Set)) (k : Str) (c : Set) :
    getChild (putChild m k c) k = some c := by
  unfold putChild
  split
  · rename_i h
    induction m with
    | nil => simp at h
    | cons pc rest ih =>
      by_cases hk : pc.1 = k
      · simp [getChild_cons, hk]
      · have h2 : rest.any (fun pc => decide (pc.1 = k)) = true := by
          simpa [hk] using h
        simpa [getChild_cons, hk] using ih h2
  · rename_i h
    induction m with
    | nil => simp [getChild_cons]
    | cons pc rest ih =>
      have hk : ¬ pc.1 = k := by
        intro e; apply h; simp [e]
      have h2 : ¬ rest.any (fun pc => decide (pc.1 = k)) = true := by
        intro e; apply h; simp only [List.any_cons, e, Bool.or_true]
      simpa [getChild_cons, hk] using ih h2

theorem getChild_putChild_ne (m : List (Str × Set)) {k k1 : Str} (c : Set) (h : k1 ≠ k) :
    getChild (putChild m k c) k1 = getChild m k1 := by
  have hmap : ∀ l : List (Str × Set),
      getChild (l.map (fun pc => if pc.1 = k then (k, c) else pc)) k1 = getChild l k1 := by
    intro l
    induction l with
    | nil => rfl
    | cons pc rest ih =>
      rw [List.map_cons, getChild_cons, getChild_cons, ih]
      by_cases hk : pc.1 = k
      · have h1 : ¬ k = k1 := fun e => h e.symm
        have h2 : ¬ pc.1 = k1 := fun e => h (e.symm.trans hk)
        simp [hk, h1, h2]
      · simp [hk]
  have happ : ∀ l : List (Str × Set), getChild (l ++ [(k, c)]) k1 = getChild l k1 := by
    intro l
    induction l with
    | nil =>
      have h1 : ¬ k = k1 := fun e => h e.symm
      simp [getChild_cons, h1, getChild]
    | cons pc rest ih => rw [List.cons_append, getChild_cons, getChild_cons, ih]
  unfold putChild
  split
  · exact hmap m
  · exact happ m

theorem getChild_deleteChild_self (m : List (Str × Set)) (k : Str) :
    getChild (deleteChild m k) k = none := by
  rw [getChild_eq_none_iff]
  intro pc hpc
  have := (List.mem_filter.mp hpc).2
  simpa using this

theorem getChild_deleteChild_ne (m : List (Str × Set)) {k k1 : Str} (h : k1 ≠ k) :
    getChild (deleteChild m k) k1 = getChild m k1 := by
  unfold deleteChild
  induction m with
  | nil => rfl
  | cons pc rest ih =>
    by_cases hk : pc.1 = k
    · have h2 : ¬ pc.1 = k1 := fun e => h (e.symm.trans hk)
      have hf : List.filter (fun pc => decide (pc.1 ≠ k)) (pc :: rest)
          = List.filter (fun pc => decide (pc.1 ≠ k)) rest := by
        simp [List.filter_cons, hk]
      rw [hf, ih, getChild_cons, if_neg h2]
    · have hf : List.filter (fun pc => decide (pc.1 ≠ k)) (pc :: rest)
          = pc :: List.filter (fun pc => decide (pc.1 ≠ k)) rest := by
        simp [List.filter_cons, hk]
      rw [hf, getChild_cons, getChild_cons, ih]

theorem mem_putChild_self (m : List (Str × Set)) (k : Str) (c : Set) :
    (k, c) ∈ putChild m k c :=
  mem_of_getChild (getChild_putChild_self m k c)

theorem mem_putChild {m : List (Str × Set)} {k : Str} {c : Set} {x : Str × Set}
    (h : x ∈ putChild m k c) : x = (k, c) ∨ (x ∈ m ∧ x.1 ≠ k) := by
  unfold putChild at h
  split at h
  · obtain ⟨y, hy, rfl⟩ := List.mem_map.mp h
    by_cases hk : y.1 = k
    · left; simp [hk]
    · right; simp [hk, hy]
  · rename_i hany
    rcases List.mem_append.mp h with h1 | h1
    · right
      refine ⟨h1, fun e => hany ?_⟩
      exact List.any_eq_true.mpr ⟨x, h1, by simp [e]⟩
    · left; simpa using h1

theorem length_putChild_ge (m : List (Str × Set)) (k : Str) (c : Set) :
    m.length ≤ (putChild m k c).length := by
  unfold putChild; split <;> simp

theorem mem_deleteChild {m : List (Str × Set)} {k : Str} {x : Str × Set} :
    x ∈ deleteChild m k ↔ x ∈ m ∧ x.1 ≠ k := by
  unfold deleteChild; simp [List.mem_filter]

/-! ### Invariants, unfolded -/

theorem inv1List_iff (m : List (Str × Set)) :
    Set.inv1.inv1List m = true ↔ ∀ pc ∈ m, pc.2.inv1 = true := by
  induction m with
  | nil => simp [Set.inv1.inv1List]
  | cons pc rest ih =>
    obtain ⟨k, c⟩ := pc
    simp [Set.inv1.inv1List, ih]

theorem inv1_mk (m : List (Str × Set)) (n : Int) :
    (Set.mk m n).inv1 = true ↔ siblingsOK m ∧ ∀ pc ∈ m, pc.2.inv1 = true := by
  simp [Set.inv1, inv1List_iff]

theorem labelsList_iff (m : List (Str × Set)) :
    Set.labelsNonEmpty.labelsList m = true
      ↔ ∀ pc ∈ m, pc.1 ≠ [] ∧ pc.2.labelsNonEmpty = true := by
  induction m with
  | nil => simp [Set.labelsNonEmpty.labelsList]
  | cons pc rest ih =>
    obtain ⟨k, c⟩ := pc
    simp [Set.labelsNonEmpty.labelsList, ih, and_assoc]

theorem labelsNonEmpty_mk (m : List (Str × Set)) (n : Int) :
    (Set.mk m n).labelsNonEmpty = true
      ↔ ∀ pc ∈ m, pc.1 ≠ [] ∧ pc.2.labelsNonEmpty = true := by
  simp [Set.labelsNonEmpty, labelsList_iff]

theorem multList_append (l1 l2 : List (Str × Set)) (t : Str) :
    Set.mult.multList (l1 ++ l2) t = Set.mult.multList l1 t + Set.mult.multList l2 t := by
  induction l1 with
  | nil => simp [Set.mult.multList]
  | cons pc rest ih =>
    obtain ⟨k, c⟩ := pc
    rw [List.cons_append]
    simp only [Set.mult.multList]
    rw [ih]
    ring

theorem mult_mk (m : List (Str × Set)) (n : Int) (t : Str) :
    (Set.mk m n).mult t = (if t = [] then n else 0) + Set.mult.multList m t := by
  simp [Set.mult]

theorem multList_cons (k : Str) (c : Set) (rest : List (Str × Set)) (t : Str) :
    Set.mult.multList ((k, c) :: rest) t
      = (if k <+: t then c.mult (t.drop k.length) else 0) + Set.mult.multList rest t := by
  simp [Set.mult.multList]

/-- Under invariant 1 two entries of one node whose labels overlap are the
same entry. -/
theorem siblingsOK_unique {m : List (Str × Set)} (hm : siblingsOK m) {x y : Str × Set}
    (hx : x ∈ m) (hy : y ∈ m) (h : 0 < prefixLen x.1 y.1) : x = y := by
  by_contra hne
  have hsym : Symmetric (fun p q : Str × Set => prefixLen p.1 q.1 = 0) := by
    intro p q hpq
    show prefixLen q.1 p.1 = 0
    rw [prefixLen_comm]; exact hpq
  have := List.Pairwise.forall hsym hm hx hy hne
  omega

/-- Under invariant 1 the entry that overlaps `s` is unique. -/
theorem siblingsOK_match_unique {m : List (Str × Set)} (hm : siblingsOK m) {s : Str}
    {x y : Str × Set} (hx : x ∈ m) (hy : y ∈ m) (h1 : 0 < prefixLen x.1 s)
    (h2 : 0 < prefixLen y.1 s) : x = y :=
  siblingsOK_unique hm hx hy (prefixLen_pos_trans h1 h2)

/-- An entry with a non-empty label splits the map around itself, and its key
occurs nowhere else. -/
theorem siblingsOK_split {m : List (Str × Set)} (hm : siblingsOK m) {k : Str} {c : Set}
    (hk : k ≠ []) (hmem : (k, c) ∈ m) :
    ∃ l1 l2, m = l1 ++ (k, c) :: l2 ∧ (∀ pc ∈ l1, pc.1 ≠ k) ∧ (∀ pc ∈ l2, pc.1 ≠ k) := by
  obtain ⟨l1, l2, rfl⟩ := List.append_of_mem hmem
  have hpos : 0 < prefixLen k k := by
    rw [prefixLen_self]; exact List.length_pos.mpr hk
  unfold siblingsOK at hm
  rw [List.pairwise_append] at hm
  obtain ⟨_, h2, h12⟩ := hm
  refine ⟨l1, l2, rfl, ?_, ?_⟩
  · intro pc hpc e
    have := h12 pc hpc (k, c) (List.mem_cons_self _ _)
    simp only [e] at this
    omega
  · intro pc hpc e
    have := (List.pairwise_cons.mp h2).1 pc hpc
    simp only [e] at this
    omega

theorem putChild_split {l1 l2 : List (Str × Set)} {k : Str} (c c1 : Set)
    (h1 : ∀ pc ∈ l1, pc.1 ≠ k) (h2 : ∀ pc ∈ l2, pc.1 ≠ k) :
    putChild (l1 ++ (k, c) :: l2) k c1 = l1 ++ (k, c1) :: l2 := by
  have hany : (l1 ++ (k, c) :: l2).any (fun pc => decide (pc.1 = k)) = true := by
    simp
  have hmap : ∀ l : List (Str × Set), (∀ pc ∈ l, pc.1 ≠ k) →
      l.map (fun pc => if pc.1 = k then (k, c1) else pc) = l := by
    intro l hl
    induction l with
    | nil => rfl
    | cons pc rest ih =>
      have hk : ¬ pc.1 = k := hl pc (List.mem_cons_self _ _)
      rw [List.map_cons, ih (fun x hx => hl x (List.mem_cons_of_mem _ hx))]
      simp [hk]
  unfold putChild
  rw [if_pos hany, List.map_append, List.map_cons, hmap l1 h1, hmap l2 h2]
  simp

theorem putChild_fresh {m : List (Str × Set)} {k : Str} (c : Set)
    (h : ∀ pc ∈ m, pc.1 ≠ k) : putChild m k c = m ++ [(k, c)] := by
  have hany : ¬ m.any (fun pc => decide (pc.1 = k)) = true := by
    intro e
    obtain ⟨x, hx, hxk⟩ := List.any_eq_true.mp e
    exact h x hx (by simpa using hxk)
  unfold putChild
  rw [if_neg hany]

theorem deleteChild_split {l1 l2 : List (Str × Set)} {k : Str} (c : Set)
    (h1 : ∀ pc ∈ l1, pc.1 ≠ k) (h2 : ∀ pc ∈ l2, pc.1 ≠ k) :
    deleteChild (l1 ++ (k, c) :: l2) k = l1 ++ l2 := by
  have hf : ∀ l : List (Str × Set), (∀ pc ∈ l, pc.1 ≠ k) →
      l.filter (fun pc => decide (pc.1 ≠ k)) = l := by
    intro l hl
    rw [List.filter_eq_self]
    intro x hx
    simpa using hl x hx
  unfold deleteChild
  rw [List.filter_append, List.filter_cons, hf l1 h1, hf l2 h2]
  simp

theorem nonnegList_iff (m : List (Str × Set)) :
    Set.countsNonneg.nonnegList m = true ↔ ∀ pc ∈ m, pc.2.countsNonneg = true := by
  induction m with
  | nil => simp [Set.countsNonneg.nonnegList]
  | cons pc rest ih =>
    obtain ⟨k, c⟩ := pc
    simp [Set.countsNonneg.nonnegList, ih]

theorem countsNonneg_mk (m : List (Str × Set)) (n : Int) :
    (Set.mk m n).countsNonneg = true ↔ 0 ≤ n ∧ ∀ pc ∈ m, pc.2.countsNonneg = true := by
  simp [Set.countsNonneg, nonnegList_iff]

/-! ### The probing loops and the range loop -/

theorem probeDown_some {m : List (Str × Set)} {s : Str} {i : Nat} {c : Set}
    (h : probeDown m s = some (i, c)) :
    0 < i ∧ i ≤ s.length ∧ getChild m (s.take i) = some c := by
  unfold probeDown at h
  obtain ⟨j, hj, hf⟩ := List.exists_of_findSome?_eq_some h
  cases hg : getChild m (s.take j) with
  | none => simp [hg] at hf
  | some c1 =>
    simp [hg] at hf
    obtain ⟨rfl, rfl⟩ := hf
    have := List.mem_iota.mp hj
    exact ⟨this.1, this.2, hg⟩

theorem probeDown_none {m : List (Str × Set)} {s : Str} (h : probeDown m s = none)
    {i : Nat} (h0 : 0 < i) (h1 : i ≤ s.length) : getChild m (s.take i) = none := by
  unfold probeDown at h
  rw [List.findSome?_eq_none_iff] at h
  have := h i (List.mem_iota.mpr ⟨h0, h1⟩)
  simpa using this

theorem probeDown_full {m : List (Str × Set)} {s : Str} {c : Set} (hs : s ≠ [])
    (h : getChild m s = some c) : probeDown m s = some (s.length, c) := by
  unfold probeDown
  obtain ⟨n, hn⟩ : ∃ n, s.length = n + 1 :=
    ⟨s.length - 1, by have := List.length_pos.mpr hs; omega⟩
  rw [hn, List.iota_succ, List.findSome?_cons]
  have : List.take (n + 1) s = s := by rw [← hn]; exact List.take_length s
  simp [this, h]

theorem probeUp_some {m : List (Str × Set)} {s : Str} {i : Nat} {c : Set}
    (h : probeUp m s = some (i, c)) :
    0 < i ∧ i ≤ s.length ∧ getChild m (s.take i) = some c := by
  unfold probeUp at h
  obtain ⟨j, hj, hf⟩ := List.exists_of_findSome?_eq_some h
  cases hg : getChild m (s.take j) with
  | none => simp [hg] at hf
  | some c1 =>
    simp [hg] at hf
    obtain ⟨rfl, rfl⟩ := hf
    have := List.mem_range'_1.mp hj
    exact ⟨by omega, by omega, hg⟩

theorem probeUp_none {m : List (Str × Set)} {s : Str} (h : probeUp m s = none)
    {i : Nat} (h0 : 0 < i) (h1 : i ≤ s.length) : getChild m (s.take i) = none := by
  unfold probeUp at h
  rw [List.findSome?_eq_none_iff] at h
  have := h i (List.mem_range'_1.mpr ⟨by omega, by omega⟩)
  simpa using this

theorem find_order_some {ord : Order} (hord : ord.Valid) {s : Str} {m : List (Str × Set)}
    {p : Str × Set → Bool} {x : Str × Set} (h : (ord s m).find? p = some x) :
    x ∈ m ∧ p x = true :=
  ⟨(hord s m).mem_iff.mp (List.mem_of_find?_eq_some h), List.find?_some h⟩

theorem find_order_none {ord : Order} (hord : ord.Valid) {s : Str} {m : List (Str × Set)}
    {p : Str × Set → Bool} (h : (ord s m).find? p = none) {x : Str × Set} (hx : x ∈ m) :
    ¬ p x = true :=
  List.find?_eq_none.mp h x ((hord s m).mem_iff.mpr hx)

theorem Order.stored_valid : Order.stored.Valid := fun _ l => List.Perm.refl l

theorem Order.reversed_valid : Order.reversed.Valid := fun _ l => List.reverse_perm l

/-- One step of `containsAtLeast`: when `k` is a non-empty prefix of `s` and the
only overlapping label, both branches descend into its child with `s[len(k):]`
and threshold 1. -/
theorem containsAux_step {ord : Order} (hord : ord.Valid) {m : List (Str × Set)}
    {s k : Str} {c : Set} (hk : k ≠ []) (hpre : k <+: s) (hom : OnlyMatch m s k c)
    (fuel : Nat) (cnt n : Int) :
    containsAux ord (fuel + 1) (.mk m cnt) s n = containsAux ord fuel c (s.drop k.length) 1 := by
  have hks : prefixLen k s = k.length := prefixLen_of_initial hpre
  have hkpos : 0 < prefixLen k s := by rw [hks]; exact List.length_pos.mpr hk
  have hs : s ≠ [] := by
    rintro rfl; exact hk (List.prefix_nil.mp hpre)
  rw [containsAux]
  simp only [hs, if_false, Set.children]
  cases hfast : (if s.length < m.length then probeDown m s else none) with
  | some ic =>
    obtain ⟨i, x⟩ := ic
    have hp : probeDown m s = some (i, x) := by
      split at hfast
      · exact hfast
      · cases hfast
    obtain ⟨h0, h1, hg⟩ := probeDown_some hp
    have hmem := mem_of_getChild hg
    have hpl : prefixLen (s.take i) s = i := prefixLen_take_eq rfl h1
    have heq := hom.2 _ hmem (by simp only; omega)
    obtain ⟨e1, e2⟩ := Prod.mk.inj heq
    have hi : k.length = i := by rw [← e1, List.length_take]; omega
    simp only [e2, hi]
  | none =>
    simp only
    cases hfind : (ord s m).find? (fun pc => decide (0 < prefixLen pc.1 s)) with
    | none =>
      exact absurd (by simpa using hkpos) (find_order_none hord hfind hom.1)
    | some y =>
      obtain ⟨hy, hpy⟩ := find_order_some hord hfind
      have heq := hom.2 y hy (by simpa using hpy)
      subst heq
      simp only [hks]

theorem onlyMatch_putChild {m : List (Str × Set)} (hm : siblingsOK m) {s k : Str} {c : Set}
    (hmem : (k, c) ∈ m) (hpos : 0 < prefixLen k s) (c1 : Set) :
    OnlyMatch (putChild m k c1) s k c1 := by
  refine ⟨mem_putChild_self m k c1, ?_⟩
  intro x hx hxs
  rcases mem_putChild hx with h | ⟨hxm, hne⟩
  · exact h
  · have := siblingsOK_match_unique hm hxm hmem hxs hpos
    exact absurd (congrArg Prod.fst this) hne

/-! ### Machine integers and the counts on a path -/

theorem wrapInt_of_range {x : Int} (h1 : minInt ≤ x) (h2 : x ≤ maxInt) : wrapInt x = x := by
  unfold wrapInt
  unfold minInt at h1
  unfold maxInt at h2
  omega

theorem wrapInt_succ {c : Int} (h1 : minInt ≤ c) (h2 : c < maxInt) :
    wrapInt (c + 1) = c + 1 := by
  apply wrapInt_of_range
  · omega
  · omega

theorem wrapInt_one : wrapInt 1 = 1 := by decide

theorem wrapInt_maxInt_succ : wrapInt (maxInt + 1) = minInt := by decide

theorem withinList_iff (lo hi : Int) (m : List (Str × Set)) :
    Set.countsWithin.withinList lo hi m = true ↔ ∀ pc ∈ m, pc.2.countsWithin lo hi = true := by
  induction m with
  | nil => simp [Set.countsWithin.withinList]
  | cons pc rest ih =>
    obtain ⟨k, c⟩ := pc
    simp [Set.countsWithin.withinList, ih]

theorem countsWithin_mk (lo hi : Int) (m : List (Str × Set)) (n : Int) :
    (Set.mk m n).countsWithin lo hi = true
      ↔ (lo ≤ n ∧ n < hi) ∧ ∀ pc ∈ m, pc.2.countsWithin lo hi = true := by
  simp [Set.countsWithin, withinList_iff]

theorem getChild_of_mem_siblingsOK {m : List (Str × Set)} (hm : siblingsOK m) {k : Str}
    {c : Set} (hk : k ≠ []) (h : (k, c) ∈ m) : getChild m k = some c := by
  obtain ⟨c1, hc1⟩ := getChild_isSome_of_mem h
  have hmem := mem_of_getChild hc1
  have hpos : 0 < prefixLen k k := by
    rw [prefixLen_self]; exact List.length_pos.mpr hk
  have := siblingsOK_unique hm hmem h hpos
  rw [hc1]
  exact congrArg (fun x => some x.2) this

theorem countsAt_root {a : Set} {lo hi : Int} (h : a.countsAt [] lo hi) :
    lo ≤ a.count ∧ a.count < hi :=
  h [] a rfl rfl

theorem countsAt_child {a : Set} {s k : Str} {c : Set} {lo hi : Int}
    (h : a.countsAt s lo hi) (hg : getChild a.children k = some c) (hk : k <+: s) :
    c.countsAt (s.drop k.length) lo hi := by
  intro ks nd hnd hfl
  apply h (k :: ks) nd
  · show (getChild a.children k).bind (fun c => c.nodeAt ks) = some nd
    rw [hg]; exact hnd
  · obtain ⟨t, rfl⟩ := hk
    rw [List.drop_left] at hfl
    simp [hfl]

/-- The node created by a split has count 0, and the edge below it does not
overlap the rest of `s`. -/
theorem countsAt_split_child (s p : Str) (c : Set) {lo hi : Int} (h0 : lo ≤ 0) (h1 : 0 < hi)
    (hsplit : prefixLen s p < p.length) :
    (Set.mk (putChild [] (p.drop (prefixLen s p)) c) 0).countsAt
      (s.drop (prefixLen s p)) lo hi := by
  intro ks nd hnd hfl
  cases ks with
  | nil =>
    simp only [Set.nodeAt, Option.some.injEq] at hnd
    subst hnd
    exact ⟨h0, h1⟩
  | cons k ks =>
    exfalso
    have hnd1 : (getChild (putChild [] (p.drop (prefixLen s p)) c) k).bind
        (fun c => c.nodeAt ks) = some nd := hnd
    cases hg : getChild (putChild [] (p.drop (prefixLen s p)) c) k with
    | none => rw [hg] at hnd1; cases hnd1
    | some c1 =>
      have hmem := mem_of_getChild hg
      simp [putChild] at hmem
      have hk : k = p.drop (prefixLen s p) := hmem.1
      have hpre : p.drop (prefixLen s p) <+: s.drop (prefixLen s p) := by
        rw [← hfl, ← hk]
        exact ⟨ks.flatten, by simp⟩
      have hz := prefixLen_drop_drop s p
      have hlen : 0 < (p.drop (prefixLen s p)).length := by
        rw [List.length_drop]; omega
      have := (prefixLen_eq_length_iff (p.drop (prefixLen s p))
        (s.drop (prefixLen s p))).mpr hpre
      rw [prefixLen_comm] at this
      omega

theorem countsAt_of_within {a : Set} {lo hi : Int} (h : a.countsWithin lo hi = true) :
    ∀ s, a.countsAt s lo hi := by
  intro s ks
  induction ks generalizing a s with
  | nil =>
    intro nd hnd _
    simp only [Set.nodeAt, Option.some.injEq] at hnd
    subst hnd
    obtain ⟨m, n⟩ := a
    exact ((countsWithin_mk lo hi m n).mp h).1
  | cons k ks ih =>
    intro nd hnd _
    have hnd1 : (getChild a.children k).bind (fun c => c.nodeAt ks) = some nd := hnd
    cases hg : getChild a.children k with
    | none => rw [hg] at hnd1; cases hnd1
    | some c =>
      rw [hg] at hnd1
      obtain ⟨m, n⟩ := a
      have hc := ((countsWithin_mk lo hi m n).mp h).2 _ (mem_of_getChild hg)
      exact ih hc ks.flatten nd hnd1 rfl

theorem containsAux_nil_one (ord : Order) (g : Nat) (m : List (Str × Set)) (cnt : Int)
    (h : 1 ≤ cnt) : containsAux ord (g + 1) (.mk m cnt) [] 1 = some true := by
  simp [containsAux, Set.count, h]

/-- Insert followed by lookup, with explicit fuel. The count that `Insert`
increments lies in `[0, maxInt)`, so the increment does not wrap around. -/
theorem insertAux_then_contains {ord1 ord2 : Order} (h1 : ord1.Valid) (h2 : ord2.Valid) :
    ∀ (f : Nat) (a : Set) (s : Str), s.length < f → a.inv1 = true →
      a.countsAt s 0 maxInt →
      ∃ a1, insertAux ord1 f a s = some a1 ∧
        ∀ g, s.length < g → containsAux ord2 g a1 s 1 = some true := by
  intro f
  induction f with
  | zero => intro a s hf; omega
  | succ f ih =>
    intro a s hf hinv hnn
    obtain ⟨m, cnt⟩ := a
    rw [inv1_mk] at hinv
    obtain ⟨hsib, hsub⟩ := hinv
    by_cases hs : s = []
    · subst hs
      obtain ⟨hc0, hc1⟩ : 0 ≤ cnt ∧ cnt < maxInt := countsAt_root hnn
      have hw : wrapInt (cnt + 1) = cnt + 1 :=
        wrapInt_succ (le_trans (by decide) hc0) hc1
      refine ⟨.mk m (cnt + 1), by simp [insertAux, Set.children, Set.count, hw], ?_⟩
      intro g hg
      obtain ⟨g, rfl⟩ : ∃ g1, g = g1 + 1 := ⟨g - 1, by simp at hg; omega⟩
      exact containsAux_nil_one ord2 g m (cnt + 1) (by omega)
    · have hspos : 0 < s.length := List.length_pos.mpr hs
      rw [insertAux]
      simp only [hs, if_false, Set.children, Set.count]
      by_cases hlen : s.length < m.length
      · simp only [hlen, if_true]
        cases hp : probeDown m s with
        | some ic =>
          obtain ⟨i, c⟩ := ic
          obtain ⟨h0, hi, hg⟩ := probeDown_some hp
          have hmem := mem_of_getChild hg
          have hat : c.countsAt (s.drop i) 0 maxInt := by
            have := countsAt_child hnn hg (List.take_prefix i s)
            rw [List.length_take, Nat.min_eq_left hi] at this
            exact this
          obtain ⟨c1, hc1, hcont⟩ := ih c (s.drop i) (by rw [List.length_drop]; omega)
            (hsub _ hmem) hat
          refine ⟨.mk (putChild m (s.take i) c1) cnt, by simp [hc1], ?_⟩
          intro g hg
          obtain ⟨g, rfl⟩ : ∃ g1, g = g1 + 1 := ⟨g - 1, by omega⟩
          have hkl : (s.take i).length = i := by rw [List.length_take]; omega
          have hkne : s.take i ≠ [] := by
            intro e; rw [e] at hkl; simp at hkl; omega
          have hpl : prefixLen (s.take i) s = i := prefixLen_take_eq rfl hi
          rw [containsAux_step h2 hkne (List.take_prefix _ _)
            (onlyMatch_putChild hsib hmem (by omega) c1), hkl]
          exact hcont g (by rw [List.length_drop]; omega)
        | none =>
          refine ⟨.mk (putChild m s (.mk [] 1)) cnt, rfl, ?_⟩
          intro g hg
          obtain ⟨g, rfl⟩ : ∃ g1, g = g1 + 1 := ⟨g - 1, by omega⟩
          obtain ⟨g, rfl⟩ : ∃ g1, g = g1 + 1 := ⟨g - 1, by omega⟩
          have hfull := probeDown_full (m := putChild m s (.mk [] 1)) hs
            (getChild_putChild_self m s _)
          have hl2 : s.length < (putChild m s (.mk [] 1)).length :=
            Nat.lt_of_lt_of_le hlen (length_putChild_ge _ _ _)
          rw [containsAux]
          simp only [hs, if_false, Set.children, hl2, if_true, hfull, List.drop_length]
          exact containsAux_nil_one ord2 g [] 1 (le_refl _)
      · simp only [hlen, if_false]
        cases hfind : (ord1 s m).find? (fun pc => decide (0 < prefixLen s pc.1)) with
        | none =>
          refine ⟨.mk (putChild m s (.mk [] 1)) cnt, rfl, ?_⟩
          intro g hg
          obtain ⟨g, rfl⟩ : ∃ g1, g = g1 + 1 := ⟨g - 1, by omega⟩
          obtain ⟨g, rfl⟩ : ∃ g1, g = g1 + 1 := ⟨g - 1, by omega⟩
          have hom : OnlyMatch (putChild m s (.mk [] 1)) s s (.mk [] 1) := by
            refine ⟨mem_putChild_self _ _ _, ?_⟩
            intro x hx hxs
            rcases mem_putChild hx with h | ⟨hxm, _⟩
            · exact h
            · have := find_order_none h1 hfind hxm
              rw [prefixLen_comm] at hxs
              exact absurd (by simpa using hxs) this
          rw [containsAux_step h2 hs (List.prefix_refl s) hom, List.drop_length]
          exact containsAux_nil_one ord2 g [] 1 (le_refl _)
        | some pc =>
          obtain ⟨p, c⟩ := pc
          obtain ⟨hmem, hpp⟩ := find_order_some h1 hfind
          have hn0 : 0 < prefixLen s p := by simpa using hpp
          have hn0' : 0 < prefixLen p s := by rw [prefixLen_comm]; exact hn0
          have hnle : prefixLen s p ≤ s.length := prefixLen_le_left s p
          simp only
          by_cases hsplit : prefixLen s p < p.length
          · simp only [hsplit, if_true]
            have hch : (Set.mk (putChild [] (p.drop (prefixLen s p)) c) 0).inv1 = true := by
              rw [inv1_mk]
              refine ⟨?_, ?_⟩
              · simp [putChild, siblingsOK]
              · intro x hx
                simp [putChild] at hx
                subst hx
                exact hsub (p, c) hmem
            have hch2 := countsAt_split_child s p c (le_refl (0 : Int))
              (by decide : (0 : Int) < maxInt) hsplit
            obtain ⟨c1, hc1, hcont⟩ := ih _ (s.drop (prefixLen s p))
              (by rw [List.length_drop]; omega) hch hch2
            refine ⟨_, by rw [hc1]; rfl, ?_⟩
            intro g hg
            obtain ⟨g, rfl⟩ : ∃ g1, g = g1 + 1 := ⟨g - 1, by omega⟩
            have hkl : (p.take (prefixLen s p)).length = prefixLen s p := by
              rw [List.length_take]; omega
            have hkne : p.take (prefixLen s p) ≠ [] := by
              intro e; rw [e] at hkl; simp at hkl; omega
            have hom : OnlyMatch
                (putChild (putChild (deleteChild m p) (p.take (prefixLen s p))
                  (.mk (putChild [] (p.drop (prefixLen s p)) c) 0))
                  (p.take (prefixLen s p)) c1) s (p.take (prefixLen s p)) c1 := by
              refine ⟨mem_putChild_self _ _ _, ?_⟩
              intro x hx hxs
              rcases mem_putChild hx with h | ⟨hx1, hne⟩
              · exact h
              · rcases mem_putChild hx1 with h | ⟨hx2, _⟩
                · exact absurd (congrArg Prod.fst h) hne
                · obtain ⟨hxm, hxp⟩ := mem_deleteChild.mp hx2
                  have := siblingsOK_match_unique hsib hxm hmem hxs hn0'
                  exact absurd (congrArg Prod.fst this) hxp
            rw [containsAux_step h2 hkne (take_prefixLen_initial s p) hom, hkl]
            exact hcont g (by rw [List.length_drop]; omega)
          · simp only [hsplit, if_false]
            have hfull : prefixLen s p = p.length := by
              have := prefixLen_le_right s p; omega
            have hpre : p <+: s := by
              rw [← prefixLen_eq_length_iff, prefixLen_comm]; exact hfull
            have hpne : p ≠ [] := by
              intro e; rw [e, prefixLen_nil_right] at hn0; omega
            have hat : c.countsAt (s.drop (prefixLen s p)) 0 maxInt := by
              have := countsAt_child hnn (getChild_of_mem_siblingsOK hsib hpne hmem) hpre
              rw [← hfull] at this
              exact this
            obtain ⟨c1, hc1, hcont⟩ := ih c (s.drop (prefixLen s p))
              (by rw [List.length_drop]; omega) (hsub _ hmem) hat
            refine ⟨_, by rw [hc1]; rfl, ?_⟩
            intro g hg
            obtain ⟨g, rfl⟩ : ∃ g1, g = g1 + 1 := ⟨g - 1, by omega⟩
            rw [containsAux_step h2 hpne hpre (onlyMatch_putChild hsib hmem hn0' c1),
              ← hfull]
            exact hcont g (by rw [List.length_drop]; omega)

/-! ### Multiplicities under an update of one entry -/

theorem prefix_drop_iff {k s : Str} (hks : k <+: s) (t : Str) :
    (k <+: t ∧ t.drop k.length = s.drop k.length) ↔ t = s := by
  constructor
  · rintro ⟨hkt, hd⟩
    obtain ⟨u, rfl⟩ := hkt
    obtain ⟨v, rfl⟩ := hks
    simp at hd
    rw [hd]
  · rintro rfl
    exact ⟨hks, rfl⟩

theorem take_drop_prefix_iff (p t : Str) (n : Nat) :
    (p.take n <+: t ∧ p.drop n <+: t.drop (p.take n).length) ↔ p <+: t := by
  constructor
  · rintro ⟨⟨u, rfl⟩, ⟨v, hv⟩⟩
    simp at hv
    refine ⟨v, ?_⟩
    rw [← hv, ← List.append_assoc, List.take_append_drop]
  · rintro ⟨u, rfl⟩
    refine ⟨⟨p.drop n ++ u, ?_⟩, ⟨u, ?_⟩⟩
    · rw [← List.append_assoc, List.take_append_drop]
    · have : p ++ u = p.take n ++ (p.drop n ++ u) := by
        rw [← List.append_assoc, List.take_append_drop]
      rw [this, List.drop_left]

theorem ite_prefix_add {k s : Str} (hks : k <+: s) (t : Str) (x : Int) :
    (if k <+: t then x + (if t.drop k.length = s.drop k.length then 1 else 0) else 0)
      = (if k <+: t then x else 0) + (if t = s then 1 else 0) := by
  have h := prefix_drop_iff hks t
  by_cases hkt : k <+: t
  · by_cases hd : t.drop k.length = s.drop k.length
    · obtain rfl : t = s := h.mp ⟨hkt, hd⟩
      simp [hkt]
    · have : ¬ t = s := fun e => hd (h.mpr e).2
      simp only [hkt, hd, this, if_true, if_false]
  · have : ¬ t = s := fun e => hkt (h.mpr e).1
    simp only [hkt, this, if_false, add_zero]

/-- Replacing the child under `k` by one that holds one more `s[len(k):]` adds
one occurrence of `s`. -/
theorem mult_update {l1 l2 : List (Str × Set)} {k s : Str} {c c1 : Set} (cnt : Int)
    (hks : k <+: s)
    (hc1 : ∀ u, c1.mult u = c.mult u + if u = s.drop k.length then 1 else 0) (t : Str) :
    (Set.mk (l1 ++ (k, c1) :: l2) cnt).mult t
      = (Set.mk (l1 ++ (k, c) :: l2) cnt).mult t + if t = s then 1 else 0 := by
  rw [mult_mk, mult_mk, multList_append, multList_append, multList_cons, multList_cons,
    hc1, ite_prefix_add hks]
  ring

/-- Adding a fresh leaf of count 1 under the label `s` adds one occurrence
of `s`. -/
theorem mult_append_leaf (m : List (Str × Set)) (cnt : Int) (s t : Str) :
    (Set.mk (m ++ [(s, .mk [] 1)]) cnt).mult t
      = (Set.mk m cnt).mult t + if t = s then 1 else 0 := by
  rw [mult_mk, mult_mk, multList_append, multList_cons, mult_mk]
  have h := prefix_drop_iff (List.prefix_refl s) t
  rw [List.drop_length] at h
  simp only [Set.mult.multList, add_zero]
  by_cases hst : s <+: t
  · by_cases hd : t.drop s.length = []
    · obtain rfl : t = s := h.mp ⟨hst, hd⟩
      simp only [hst, hd, if_true]
      ring
    · have : ¬ t = s := fun e => hd (h.mpr e).2
      simp only [hst, hd, this, if_true, if_false, add_zero]
  · have : ¬ t = s := fun e => hst (h.mpr e).1
    simp only [hst, this, if_false, add_zero]

/-- Splitting the edge `p` at `n`: the intermediate node under `p[:n]` that
holds the old child under `p[n:]` represents the same strings. -/
theorem mult_split_edge (p : Str) (c : Set) (n : Nat) (t : Str) :
    (if p.take n <+: t then
        (Set.mk [(p.drop n, c)] 0).mult (t.drop (p.take n).length) else 0)
      = (if p <+: t then c.mult (t.drop p.length) else 0) := by
  have h := take_drop_prefix_iff p t n
  rw [mult_mk, multList_cons]
  simp only [Set.mult.multList, add_zero, ite_self, zero_add]
  have hlen : (p.take n).length + (p.drop n).length = p.length := by
    rw [← List.length_append, List.take_append_drop]
  by_cases h1 : p.take n <+: t
  · by_cases h2 : p.drop n <+: t.drop (p.take n).length
    · have h3 : p <+: t := h.mp ⟨h1, h2⟩
      simp only [h1, h2, h3, if_true]
      rw [List.drop_drop, hlen]
    · have h3 : ¬ p <+: t := fun e => h2 (h.mpr e).2
      simp only [h1, h2, h3, if_true, if_false]
  · have h3 : ¬ p <+: t := fun e => h1 (h.mpr e).1
    simp only [h1, h3, if_false]

theorem putChild_nil (k : Str) (c : Set) : putChild [] k c = [(k, c)] := rfl

/-- Insert adds exactly one occurrence of `s`, with explicit fuel, when the
count that is incremented is an `int` other than `maxInt`. -/
theorem insertAux_mult {ord : Order} (hord : ord.Valid) :
    ∀ (f : Nat) (a : Set) (s : Str), s.length < f → a.inv1 = true →
      a.countsAt s minInt maxInt →
      ∃ a1, insertAux ord f a s = some a1 ∧
        ∀ t, a1.mult t = a.mult t + if t = s then 1 else 0 := by
  intro f
  induction f with
  | zero => intro a s hf; omega
  | succ f ih =>
    intro a s hf hinv hnn
    obtain ⟨m, cnt⟩ := a
    rw [inv1_mk] at hinv
    obtain ⟨hsib, hsub⟩ := hinv
    by_cases hs : s = []
    · subst hs
      obtain ⟨hc0, hc1⟩ : minInt ≤ cnt ∧ cnt < maxInt := countsAt_root hnn
      have hw : wrapInt (cnt + 1) = cnt + 1 := wrapInt_succ hc0 hc1
      refine ⟨.mk m (cnt + 1), by simp [insertAux, Set.children, Set.count, hw], ?_⟩
      intro t
      rw [mult_mk, mult_mk]
      by_cases ht : t = [] <;> simp [ht]; ring
    · have hspos : 0 < s.length := List.length_pos.mpr hs
      rw [insertAux]
      simp only [hs, if_false, Set.children, Set.count]
      by_cases hlen : s.length < m.length
      · simp only [hlen, if_true]
        cases hp : probeDown m s with
        | some ic =>
          obtain ⟨i, c⟩ := ic
          obtain ⟨h0, hi, hg⟩ := probeDown_some hp
          have hmem := mem_of_getChild hg
          have hat : c.countsAt (s.drop i) minInt maxInt := by
            have := countsAt_child hnn hg (List.take_prefix i s)
            rw [List.length_take, Nat.min_eq_left hi] at this
            exact this
          obtain ⟨c1, hc1, hmult⟩ := ih c (s.drop i) (by rw [List.length_drop]; omega)
            (hsub _ hmem) hat
          have hkl : (s.take i).length = i := by rw [List.length_take]; omega
          have hkne : s.take i ≠ [] := by
            intro e; rw [e] at hkl; simp at hkl; omega
          obtain ⟨l1, l2, hm, hf1, hf2⟩ := siblingsOK_split hsib hkne hmem
          refine ⟨.mk (putChild m (s.take i) c1) cnt, by simp [hc1], ?_⟩
          intro t
          rw [hm, putChild_split c c1 hf1 hf2]
          exact mult_update cnt (List.take_prefix i s) (by rw [hkl]; exact hmult) t
        | none =>
          refine ⟨.mk (putChild m s (.mk [] 1)) cnt, rfl, ?_⟩
          intro t
          have hnone := probeDown_none hp hspos (le_refl _)
          rw [List.take_length] at hnone
          rw [putChild_fresh _ (getChild_eq_none_iff.mp hnone)]
          exact mult_append_leaf m cnt s t
      · simp only [hlen, if_false]
        cases hfind : (ord s m).find? (fun pc => decide (0 < prefixLen s pc.1)) with
        | none =>
          refine ⟨.mk (putChild m s (.mk [] 1)) cnt, rfl, ?_⟩
          intro t
          have hfresh : ∀ pc ∈ m, pc.1 ≠ s := by
            intro pc hpc e
            have := find_order_none hord hfind hpc
            rw [e, prefixLen_self] at this
            exact this (by simpa using hspos)
          rw [putChild_fresh _ hfresh]
          exact mult_append_leaf m cnt s t
        | some pc =>
          obtain ⟨p, c⟩ := pc
          obtain ⟨hmem, hpp⟩ := find_order_some hord hfind
          have hn0 : 0 < prefixLen s p := by simpa using hpp
          have hnle : prefixLen s p ≤ s.length := prefixLen_le_left s p
          have hnlp : prefixLen s p ≤ p.length := prefixLen_le_right s p
          have hpne : p ≠ [] := by
            intro e; rw [e, prefixLen_nil_right] at hn0; omega
          obtain ⟨l1, l2, hm, hf1, hf2⟩ := siblingsOK_split hsib hpne hmem
          simp only
          by_cases hsplit : prefixLen s p < p.length
          · simp only [hsplit, if_true, putChild_nil]
            have hch : (Set.mk [(p.drop (prefixLen s p), c)] 0).inv1 = true := by
              rw [inv1_mk]
              refine ⟨by simp [siblingsOK], ?_⟩
              intro x hx
              simp at hx
              subst hx
              exact hsub (p, c) hmem
            obtain ⟨c1, hc1, hmult⟩ := ih _ (s.drop (prefixLen s p))
              (by rw [List.length_drop]; omega) hch
              (countsAt_split_child s p c (by decide : minInt ≤ 0)
                (by decide : (0 : Int) < maxInt) hsplit)
            refine ⟨_, by rw [hc1]; rfl, ?_⟩
            intro t
            have hkl : (p.take (prefixLen s p)).length = prefixLen s p := by
              rw [List.length_take]; omega
            have hkfresh : ∀ x ∈ l1 ++ l2, x.1 ≠ p.take (prefixLen s p) := by
              intro x hx e
              have hxm : x ∈ m := by
                rw [hm]
                rcases List.mem_append.mp hx with h | h
                · exact List.mem_append_left _ h
                · exact List.mem_append_right _ (List.mem_cons_of_mem _ h)
              have hxp : 0 < prefixLen x.1 p := by
                rw [e, prefixLen_take_eq rfl hnlp]; exact hn0
              have hxe := siblingsOK_unique hsib hxm hmem hxp
              have : p.take (prefixLen s p) = p := by rw [← e, hxe]
              have := congrArg List.length this
              omega
            have hnil : ∀ pc ∈ ([] : List (Str × Set)), pc.1 ≠ p.take (prefixLen s p) := by
              simp
            beta_reduce
            rw [hm, deleteChild_split c hf1 hf2, putChild_fresh _ hkfresh,
              putChild_split _ c1 hkfresh hnil]
            rw [mult_mk, mult_mk, multList_append, multList_append, multList_append,
              multList_cons, multList_cons, hmult]
            have hks : p.take (prefixLen s p) <+: s := take_prefixLen_initial s p
            have h3 := ite_prefix_add hks t
              ((Set.mk [(p.drop (prefixLen s p), c)] 0).mult
                (t.drop (p.take (prefixLen s p)).length))
            have h4 := mult_split_edge p c (prefixLen s p) t
            rw [hkl] at h3 h4
            rw [hkl, h3, h4]
            simp only [Set.mult.multList]
            ring
          · simp only [hsplit, if_false]
            have hfull : prefixLen s p = p.length := by omega
            have hpre : p <+: s := by
              rw [← prefixLen_eq_length_iff, prefixLen_comm]; exact hfull
            have hat : c.countsAt (s.drop (prefixLen s p)) minInt maxInt := by
              have := countsAt_child hnn (getChild_of_mem_siblingsOK hsib hpne hmem) hpre
              rw [← hfull] at this
              exact this
            obtain ⟨c1, hc1, hmult⟩ := ih c (s.drop (prefixLen s p))
              (by rw [List.length_drop]; omega) (hsub _ hmem) hat
            refine ⟨_, by rw [hc1]; rfl, ?_⟩
            intro t
            beta_reduce
            rw [hm, putChild_split c c1 hf1 hf2]
            exact mult_update cnt hpre (by rw [← hfull]; exact hmult) t

/-! ### Removal along a path -/

/-- One step of `remove`: when `k` is a non-empty prefix of `s` and the only
overlapping label, both branches descend into its child with `s[len(k):]`; the
edge is deleted when the child ran its `deleteSelfFn`, otherwise the child is
written back. -/
theorem removeAux_step {ord : Order} (hord : ord.Valid) {m : List (Str × Set)}
    {s k : Str} {c : Set} (hk : k ≠ []) (hpre : k <+: s) (hom : OnlyMatch m s k c)
    (fuel : Nat) (cnt : Int) :
    removeAux ord (fuel + 1) (.mk m cnt) s
      = (removeAux ord fuel c (s.drop k.length)).map (fun r =>
          ⟨.mk (if r.detached then deleteChild m k else putChild m k r.node) cnt,
            r.old, false⟩) := by
  have hks : prefixLen k s = k.length := prefixLen_of_initial hpre
  have hkpos : 0 < prefixLen k s := by rw [hks]; exact List.length_pos.mpr hk
  have hkl : k.length ≤ s.length := hpre.length_le
  have hs : s ≠ [] := by
    rintro rfl; exact hk (List.prefix_nil.mp hpre)
  rw [removeAux]
  simp only [hs, if_false, Set.children, Set.count]
  by_cases hlen : s.length < m.length
  · simp only [hlen, if_true]
    cases hp : probeUp m s with
    | some ic =>
      obtain ⟨i, x⟩ := ic
      obtain ⟨h0, h1, hg⟩ := probeUp_some hp
      have hmem := mem_of_getChild hg
      have hpl : prefixLen (s.take i) s = i := prefixLen_take_eq rfl h1
      have heq := hom.2 _ hmem (by simp only; omega)
      obtain ⟨e1, e2⟩ := Prod.mk.inj heq
      have hi : k.length = i := by rw [← e1, List.length_take]; omega
      simp only [e1, e2, hi]
    | none =>
      have hnone := probeUp_none hp (List.length_pos.mpr hk) hkl
      rw [← List.prefix_iff_eq_take.mp hpre] at hnone
      exact absurd rfl (getChild_eq_none_iff.mp hnone _ hom.1)
  · simp only [hlen, if_false]
    cases hfind : (ord s m).find? (fun pc => decide (0 < prefixLen pc.1 s)) with
    | none =>
      exact absurd (by simpa using hkpos) (find_order_none hord hfind hom.1)
    | some y =>
      obtain ⟨hy, hpy⟩ := find_order_some hord hfind
      have heq := hom.2 y hy (by simpa using hpy)
      subst heq
      simp only [hks]

theorem onlyMatch_of_initial {m : List (Str × Set)} (hm : siblingsOK m) {s k : Str} {c : Set}
    (hmem : (k, c) ∈ m) (hk : k ≠ []) (hpre : k <+: s) : OnlyMatch m s k c := by
  refine ⟨hmem, fun x hx hxs => ?_⟩
  have hkpos : 0 < prefixLen k s := by
    rw [prefixLen_of_initial hpre]; exact List.length_pos.mpr hk
  exact siblingsOK_match_unique hm hx hmem hxs hkpos

theorem nodeAt_cons (a : Set) (k : Str) (ks : List Str) :
    a.nodeAt (k :: ks) = (getChild a.children k).bind (fun c => c.nodeAt ks) := rfl

theorem nodeAt_nil (a : Set) : a.nodeAt [] = some a := rfl

theorem children_mk (m : List (Str × Set)) (n : Int) : (Set.mk m n).children = m := rfl

theorem count_mk (m : List (Str × Set)) (n : Int) : (Set.mk m n).count = n := rfl

/-- Removal of the string spelled by a path to a node of positive count, with
explicit fuel: the call returns; it reports `detached` exactly when it was
made on the node itself and emptied it; every other node keeps its count; the
node itself is gone when it was emptied below the root and otherwise has its
count lowered by one. -/
theorem removeAux_path {ord : Order} (hord : ord.Valid) :
    ∀ (ks : List Str) (a nd : Set) (f : Nat), a.inv1 = true → a.labelsNonEmpty = true →
      a.nodeAt ks = some nd → 0 < nd.count → ks.flatten.length < f →
      ∃ r, removeAux ord f a ks.flatten = some r ∧
        (r.detached = true ↔ ks = [] ∧ nd.count = 1 ∧ nd.children.length = 0) ∧
        (∀ q, q ≠ ks → (r.node.nodeAt q).map Set.count = (a.nodeAt q).map Set.count) ∧
        r.node.nodeAt ks
          = if ks ≠ [] ∧ nd.count = 1 ∧ nd.children.length = 0 then none
            else some (.mk nd.children (nd.count - 1)) := by
  intro ks
  induction ks with
  | nil =>
    intro a nd f _ _ hnode hpos hf
    obtain ⟨f, rfl⟩ : ∃ f1, f = f1 + 1 := ⟨f - 1, by omega⟩
    rw [nodeAt_nil] at hnode
    obtain rfl : a = nd := Option.some.inj hnode
    obtain ⟨m, cnt⟩ := a
    simp only [count_mk] at hpos
    rw [List.flatten_nil, removeAux]
    simp only [if_true, count_mk, children_mk, gt_iff_lt, hpos]
    by_cases hem : (Set.mk m (cnt - 1)).empty = true
    · simp only [hem, if_true]
      refine ⟨_, rfl, ?_, ?_, ?_⟩
      · have : m.length = 0 ∧ cnt = 1 := by
          simp [Set.empty, children_mk, count_mk] at hem
          exact ⟨by simp [hem.1], by omega⟩
        simp [count_mk, children_mk, this.1, this.2]
      · intro q hq
        cases q with
        | nil => exact absurd rfl hq
        | cons k q => rfl
      · simp [nodeAt_nil]
    · simp only [hem]
      refine ⟨_, rfl, ?_, ?_, ?_⟩
      · simp only [Bool.false_eq_true, true_and, false_iff, count_mk, children_mk]
        rintro ⟨h1, h2⟩
        apply hem
        simp [Set.empty, children_mk, count_mk, h1, h2]
      · intro q hq
        cases q with
        | nil => exact absurd rfl hq
        | cons k q => rfl
      · simp [nodeAt_nil]
  | cons k ks ih =>
    intro a nd f hinv hlab hnode hpos hf
    obtain ⟨m, cnt⟩ := a
    rw [inv1_mk] at hinv
    rw [labelsNonEmpty_mk] at hlab
    rw [nodeAt_cons] at hnode
    simp only [children_mk] at hnode
    cases hg : getChild m k with
    | none => simp [hg] at hnode
    | some c0 =>
      rw [hg] at hnode
      simp only [Option.some_bind] at hnode
      have hmem := mem_of_getChild hg
      have hk : k ≠ [] := (hlab _ hmem).1
      have hkl : 0 < k.length := List.length_pos.mpr hk
      rw [List.flatten_cons] at hf ⊢
      rw [List.length_append] at hf
      obtain ⟨f, rfl⟩ : ∃ f1, f = f1 + 1 := ⟨f - 1, by omega⟩
      have hpre : k <+: k ++ ks.flatten := List.prefix_append _ _
      rw [removeAux_step hord hk hpre (onlyMatch_of_initial hinv.1 hmem hk hpre),
        List.drop_left]
      obtain ⟨r0, hr0, hdet, hothers, hself⟩ := ih c0 nd f (hinv.2 _ hmem) (hlab _ hmem).2
        hnode hpos (by omega)
      rw [hr0]
      refine ⟨_, rfl, ?_, ?_, ?_⟩
      · simp
      · intro q hq
        cases q with
        | nil => rfl
        | cons k1 q =>
          rw [nodeAt_cons, nodeAt_cons]
          simp only [children_mk]
          by_cases hk1 : k1 = k
          · subst hk1
            have hq1 : q ≠ ks := fun e => hq (by rw [e])
            rw [hg]
            cases hd : r0.detached with
            | true =>
              simp only [if_true, getChild_deleteChild_self, Option.none_bind,
                Option.some_bind, Option.map_none']
              obtain ⟨rfl, _, hch⟩ := hdet.mp hd
              rw [nodeAt_nil] at hnode
              obtain rfl : c0 = nd := Option.some.inj hnode
              cases q with
              | nil => exact absurd rfl hq1
              | cons k2 q =>
                have : c0.children = [] := List.length_eq_zero.mp hch
                simp [nodeAt_cons, this, getChild]
            | false =>
              simp only [Bool.false_eq_true, if_false, getChild_putChild_self,
                Option.some_bind]
              exact hothers q hq1
          · cases hd : r0.detached with
            | true => simp only [if_true, getChild_deleteChild_ne m hk1]
            | false =>
              simp only [Bool.false_eq_true, if_false, getChild_putChild_ne m _ hk1]
      · rw [nodeAt_cons]
        simp only [children_mk]
        cases hd : r0.detached with
        | true =>
          simp only [if_true, getChild_deleteChild_self, Option.none_bind]
          obtain ⟨_, h1, h2⟩ := hdet.mp hd
          rw [if_pos ⟨List.cons_ne_nil _ _, h1, h2⟩]
        | false =>
          simp only [Bool.false_eq_true, if_false, getChild_putChild_self,
            Option.some_bind, hself]
          have hd1 : ¬ r0.detached = true := by simp [hd]
          have hnd : ¬ (ks = [] ∧ nd.count = 1 ∧ nd.children.length = 0) := fun h => hd1 (hdet.mpr h)
          by_cases hc : nd.count = 1 ∧ nd.children.length = 0
          · have hks : ks ≠ [] := fun e => hnd ⟨e, hc⟩
            rw [if_pos ⟨hks, hc⟩, if_pos ⟨List.cons_ne_nil _ _, hc⟩]
          · have h1 : ¬ (ks ≠ [] ∧ nd.count = 1 ∧ nd.children.length = 0) := fun h => hc h.2
            have h2 : ¬ (k :: ks ≠ [] ∧ nd.count = 1 ∧ nd.children.length = 0) := fun h => hc h.2
            rw [if_neg h1, if_neg h2]

/-! ### Every call returns -/

theorem containsAux_total (ord : Order) :
    ∀ (f : Nat) (a : Set) (s : Str) (n : Int), s.length < f →
      (containsAux ord f a s n).isSome = true := by
  intro f
  induction f with
  | zero => intro a s n hf; omega
  | succ f ih =>
    intro a s n hf
    rw [containsAux]
    by_cases hs : s = []
    · simp [hs]
    · simp only [hs, if_false]
      cases hfast : (if s.length < a.children.length then probeDown a.children s else none) with
      | some ic =>
        obtain ⟨i, x⟩ := ic
        have hp : probeDown a.children s = some (i, x) := by
          split at hfast
          · exact hfast
          · cases hfast
        obtain ⟨h0, _, _⟩ := probeDown_some hp
        exact ih x _ 1 (by rw [List.length_drop]; omega)
      | none =>
        simp only
        cases hfind : (ord s a.children).find? (fun pc => decide (0 < prefixLen pc.1 s)) with
        | none => rfl
        | some y =>
          have hpy : 0 < prefixLen y.1 s := by simpa using List.find?_some hfind
          have hle := prefixLen_le_right y.1 s
          exact ih y.2 _ 1 (by rw [List.length_drop]; omega)

theorem insertAux_total (ord : Order) :
    ∀ (f : Nat) (a : Set) (s : Str), s.length < f → (insertAux ord f a s).isSome = true := by
  intro f
  induction f with
  | zero => intro a s hf; omega
  | succ f ih =>
    intro a s hf
    rw [insertAux]
    by_cases hs : s = []
    · simp [hs]
    · simp only [hs, if_false]
      by_cases hlen : s.length < a.children.length
      · simp only [hlen, if_true]
        cases hp : probeDown a.children s with
        | none => rfl
        | some ic =>
          obtain ⟨i, x⟩ := ic
          obtain ⟨h0, _, _⟩ := probeDown_some hp
          simp only [Option.isSome_map']
          exact ih x _ (by rw [List.length_drop]; omega)
      · simp only [hlen, if_false]
        cases hfind : (ord s a.children).find? (fun pc => decide (0 < prefixLen s pc.1)) with
        | none => rfl
        | some y =>
          have hpy : 0 < prefixLen s y.1 := by simpa using List.find?_some hfind
          have hle := prefixLen_le_left s y.1
          simp only
          split
          · simp only [Option.isSome_map']
            exact ih _ _ (by rw [List.length_drop]; omega)
          · simp only [Option.isSome_map']
            exact ih _ _ (by rw [List.length_drop]; omega)

theorem removeAux_total (ord : Order) :
    ∀ (f : Nat) (a : Set) (s : Str), s.length < f → (removeAux ord f a s).isSome = true := by
  intro f
  induction f with
  | zero => intro a s hf; omega
  | succ f ih =>
    intro a s hf
    rw [removeAux]
    by_cases hs : s = []
    · simp only [hs, if_true]
      split
      · split <;> rfl
      · rfl
    · simp only [hs, if_false]
      by_cases hlen : s.length < a.children.length
      · simp only [hlen, if_true]
        cases hp : probeUp a.children s with
        | none => rfl
        | some ic =>
          obtain ⟨i, x⟩ := ic
          obtain ⟨h0, _, _⟩ := probeUp_some hp
          simp only [Option.isSome_map']
          exact ih x _ (by rw [List.length_drop]; omega)
      · simp only [hlen, if_false]
        cases hfind : (ord s a.children).find? (fun pc => decide (0 < prefixLen pc.1 s)) with
        | none => rfl
        | some y =>
          have hpy : 0 < prefixLen y.1 s := by simpa using List.find?_some hfind
          have hle := prefixLen_le_right y.1 s
          simp only [Option.isSome_map']
          exact ih _ _ (by rw [List.length_drop]; omega)

/-- When `Insert` takes its linear-scan branch, it is `scanInsert`. -/
theorem insert_eq_scanInsert (ord : Order) (a : Set) (s : Str) (hs : s ≠ [])
    (hlen : ¬ s.length < a.children.length) : Insert ord a s = scanInsert ord a s := by
  unfold Insert scanInsert
  rw [insertAux]
  simp only [hs, hlen, if_false]

/-! ### Fuel beyond `len(s)` is never used -/

theorem containsAux_fuel (ord : Order) :
    ∀ (f g : Nat) (a : Set) (s : Str) (n : Int), s.length < f → s.length < g →
      containsAux ord f a s n = containsAux ord g a s n := by
  intro f
  induction f with
  | zero => intro g a s n hf; omega
  | succ f ih =>
    intro g a s n hf hg
    obtain ⟨g, rfl⟩ : ∃ g1, g = g1 + 1 := ⟨g - 1, by omega⟩
    rw [containsAux, containsAux]
    by_cases hs : s = []
    · simp [hs]
    · simp only [hs, if_false]
      cases hfast : (if s.length < a.children.length then probeDown a.children s else none) with
      | some ic =>
        obtain ⟨i, x⟩ := ic
        have hp : probeDown a.children s = some (i, x) := by
          split at hfast
          · exact hfast
          · cases hfast
        obtain ⟨h0, _, _⟩ := probeDown_some hp
        exact ih g x _ 1 (by rw [List.length_drop]; omega) (by rw [List.length_drop]; omega)
      | none =>
        simp only
        cases hfind : (ord s a.children).find? (fun pc => decide (0 < prefixLen pc.1 s)) with
        | none => rfl
        | some y =>
          have hpy : 0 < prefixLen y.1 s := by simpa using List.find?_some hfind
          have hle := prefixLen_le_right y.1 s
          exact ih g y.2 _ 1 (by rw [List.length_drop]; omega)
            (by rw [List.length_drop]; omega)

theorem insertAux_fuel (ord : Order) :
    ∀ (f g : Nat) (a : Set) (s : Str), s.length < f → s.length < g →
      insertAux ord f a s = insertAux ord g a s := by
  intro f
  induction f with
  | zero => intro g a s hf; omega
  | succ f ih =>
    intro g a s hf hg
    obtain ⟨g, rfl⟩ : ∃ g1, g = g1 + 1 := ⟨g - 1, by omega⟩
    rw [insertAux, insertAux]
    by_cases hs : s = []
    · simp [hs]
    · simp only [hs, if_false]
      by_cases hlen : s.length < a.children.length
      · simp only [hlen, if_true]
        cases hp : probeDown a.children s with
        | none => rfl
        | some ic =>
          obtain ⟨i, x⟩ := ic
          obtain ⟨h0, _, _⟩ := probeDown_some hp
          simp only
          rw [ih g x _ (by rw [List.length_drop]; omega) (by rw [List.length_drop]; omega)]
      · simp only [hlen, if_false]
        cases hfind : (ord s a.children).find? (fun pc => decide (0 < prefixLen s pc.1)) with
        | none => rfl
        | some y =>
          have hpy : 0 < prefixLen s y.1 := by simpa using List.find?_some hfind
          have hle := prefixLen_le_left s y.1
          simp only
          split
          · rw [ih g _ _ (by rw [List.length_drop]; omega) (by rw [List.length_drop]; omega)]
          · rw [ih g _ _ (by rw [List.length_drop]; omega) (by rw [List.length_drop]; omega)]

theorem removeAux_fuel (ord : Order) :
    ∀ (f g : Nat) (a : Set) (s : Str), s.length < f → s.length < g →
      removeAux ord f a s = removeAux ord g a s := by
  intro f
  induction f with
  | zero => intro g a s hf; omega
  | succ f ih =>
    intro g a s hf hg
    obtain ⟨g, rfl⟩ : ∃ g1, g = g1 + 1 := ⟨g - 1, by omega⟩
    rw [removeAux, removeAux]
    by_cases hs : s = []
    · simp [hs]
    · simp only [hs, if_false]
      by_cases hlen : s.length < a.children.length
      · simp only [hlen, if_true]
        cases hp : probeUp a.children s with
        | none => rfl
        | some ic =>
          obtain ⟨i, x⟩ := ic
          obtain ⟨h0, _, _⟩ := probeUp_some hp
          simp only
          rw [ih g x _ (by rw [List.length_drop]; omega) (by rw [List.length_drop]; omega)]
      · simp only [hlen, if_false]
        cases hfind : (ord s a.children).find? (fun pc => decide (0 < prefixLen pc.1 s)) with
        | none => rfl
        | some y =>
          have hpy : 0 < prefixLen y.1 s := by simpa using List.find?_some hfind
          have hle := prefixLen_le_right y.1 s
          simp only
          rw [ih g _ _ (by rw [List.length_drop]; omega) (by rw [List.length_drop]; omega)]

/-- One step of `Contains` at the entry point. -/
theorem Contains_step {ord : Order} (hord : ord.Valid) {m : List (Str × Set)}
    {s k : Str} {c : Set} (hk : k ≠ []) (hpre : k <+: s) (hom : OnlyMatch m s k c)
    (cnt : Int) :
    Contains ord (.mk m cnt) s = Contains ord c (s.drop k.length) := by
  unfold Contains containsAtLeast
  rw [containsAux_step hord hk hpre hom]
  have hkl : 0 < k.length := List.length_pos.mpr hk
  have hle : k.length ≤ s.length := hpre.length_le
  exact containsAux_fuel ord _ _ c _ 1 (by rw [List.length_drop]; omega) (Nat.lt_succ_self _)

theorem Contains_nil (ord : Order) (a : Set) : Contains ord a [] = some (decide (a.count ≥ 1)) := by
  simp [Contains, containsAtLeast, containsAux]

theorem order_nil {ord : Order} (hord : ord.Valid) (s : Str) : ord s [] = [] :=
  (hord s []).eq_nil

theorem order_singleton {ord : Order} (hord : ord.Valid) (s : Str) (e : Str × Set) :
    ord s [e] = [e] :=
  List.perm_singleton.mp (hord s [e])

/-- Inserting a non-empty string below a node whose labels do not overlap it
adds a leaf of count 1 under the whole string. -/
theorem insertAux_no_overlap {ord : Order} (hord : ord.Valid) (f : Nat)
    (m : List (Str × Set)) (cnt : Int) (t : Str) (ht : t ≠ [])
    (hno : ∀ x ∈ m, prefixLen t x.1 = 0) :
    insertAux ord (f + 1) (.mk m cnt) t = some (.mk (m ++ [(t, .mk [] 1)]) cnt) := by
  have hfresh : ∀ pc ∈ m, pc.1 ≠ t := by
    intro pc hpc e
    have := hno pc hpc
    rw [e, prefixLen_self] at this
    exact ht (List.length_eq_zero.mp this)
  rw [insertAux]
  simp only [ht, if_false, children_mk, count_mk]
  by_cases hlen : t.length < m.length
  · simp only [hlen, if_true]
    cases hp : probeDown m t with
    | none => rw [putChild_fresh _ hfresh]
    | some ic =>
      obtain ⟨i, x⟩ := ic
      obtain ⟨h0, hi, hg⟩ := probeDown_some hp
      have := hno _ (mem_of_getChild hg)
      rw [prefixLen_comm, prefixLen_take_eq rfl hi] at this
      omega
  · simp only [hlen, if_false]
    cases hfind : (ord t m).find? (fun pc => decide (0 < prefixLen t pc.1)) with
    | none => rw [putChild_fresh _ hfresh]
    | some y =>
      obtain ⟨hy, hpy⟩ := find_order_some hord hfind
      have := hno y hy
      simp at hpy
      omega

theorem prefixLen_append_left (p x y : Str) :
    prefixLen (p ++ y) (p ++ x) = p.length + prefixLen y x := by
  induction p with
  | nil => simp
  | cons a t ih =>
    simp only [List.cons_append, prefixLen_cons, if_true, ih, List.length_cons]
    omega

theorem prefixLen_eq_zero_of_head {x y : Str} (h : x.head? ≠ y.head?) : prefixLen y x = 0 := by
  by_contra hne
  obtain ⟨a, t1, t2, rfl, rfl⟩ := (prefixLen_pos_iff y x).mp (Nat.pos_of_ne_zero hne)
  exact h rfl

theorem insert_zero {ord : Order} (hord : ord.Valid) (s : Str) (hs : s ≠ []) :
    Insert ord Set.zero s = some (.mk [(s, .mk [] 1)] 0) := by
  unfold Insert Set.zero
  rw [insertAux_no_overlap hord _ [] 0 s hs (by simp)]
  rfl

theorem putChild_singleton_same (k : Str) (c c1 : Set) :
    putChild [(k, c)] k c1 = [(k, c1)] := by
  simp [putChild]

theorem deleteChild_singleton_same (k : Str) (c : Set) : deleteChild [(k, c)] k = [] := by
  simp [deleteChild]

/-- The second insertion of the edge-split scenario. -/
theorem insert_split {ord : Order} (hord : ord.Valid) (p x y : Str) (hp : p ≠ [])
    (hx : x ≠ []) (hy : y ≠ []) (hxy : x.head? ≠ y.head?) :
    Insert ord (.mk [(p ++ x, .mk [] 1)] 0) (p ++ y)
      = some (.mk [(p, .mk [(x, .mk [] 1), (y, .mk [] 1)] 0)] 0) := by
  have hpl : 0 < p.length := List.length_pos.mpr hp
  have hxl : 0 < x.length := List.length_pos.mpr hx
  have hyl : 0 < y.length := List.length_pos.mpr hy
  have hyx : prefixLen y x = 0 := prefixLen_eq_zero_of_head hxy
  have hn : prefixLen (p ++ y) (p ++ x) = p.length := by
    rw [prefixLen_append_left, hyx]; rfl
  have hs : p ++ y ≠ [] := by simp [hp]
  have hlen : ¬ (p ++ y).length < [(p ++ x, Set.mk [] 1)].length := by
    simp only [List.length_append, List.length_singleton]; omega
  have hfind : (ord (p ++ y) [(p ++ x, Set.mk [] 1)]).find?
      (fun pc => decide (0 < prefixLen (p ++ y) pc.1)) = some (p ++ x, Set.mk [] 1) := by
    rw [order_singleton hord]
    simp [hn, hpl]
  have hrec : insertAux ord (p ++ y).length (Set.mk [(x, Set.mk [] 1)] 0) y
      = some (.mk [(x, .mk [] 1), (y, .mk [] 1)] 0) := by
    obtain ⟨g, hg⟩ : ∃ g, (p ++ y).length = g + 1 :=
      ⟨(p ++ y).length - 1, by simp only [List.length_append]; omega⟩
    rw [hg, insertAux_no_overlap hord g _ 0 y hy (by simp [hyx])]
    rfl
  unfold Insert
  rw [insertAux]
  simp only [hs, hlen, if_false, children_mk, count_mk, hfind, hn, List.length_append,
    Nat.lt_add_right_iff_pos, hxl, if_true, List.take_left, List.drop_left, putChild_nil,
    deleteChild_singleton_same]
  simp only [← List.length_append, hrec, Option.map_some', putChild_singleton_same]
  rw [if_neg hlen]

theorem onlyMatch_singleton (s k : Str) (c : Set) : OnlyMatch [(k, c)] s k c :=
  ⟨List.mem_singleton.mpr rfl, fun _ hx _ => List.mem_singleton.mp hx⟩

theorem onlyMatch_pair_left {x y : Str} (cx cy : Set) (h : prefixLen y x = 0) :
    OnlyMatch [(x, cx), (y, cy)] x x cx := by
  refine ⟨List.mem_cons_self _ _, ?_⟩
  intro e he hpos
  rcases List.mem_cons.mp he with h1 | h1
  · exact h1
  · have h2 := List.mem_singleton.mp h1
    rw [h2] at hpos
    simp only at hpos
    omega

theorem onlyMatch_pair_right {x y : Str} (cx cy : Set) (h : prefixLen x y = 0) :
    OnlyMatch [(x, cx), (y, cy)] y y cy := by
  refine ⟨List.mem_cons_of_mem _ (List.mem_singleton.mpr rfl), ?_⟩
  intro e he hpos
  rcases List.mem_cons.mp he with h1 | h1
  · rw [h1] at hpos
    simp only at hpos
    omega
  · exact List.mem_singleton.mp h1

/-! ### Lookup against the scan-only reference -/

theorem containsAux_eq_scan {ord1 ord2 : Order} (h1 : ord1.Valid) (h2 : ord2.Valid) :
    ∀ (f : Nat) (a : Set) (s : Str) (n : Int), a.inv1 = true →
      containsAux ord1 f a s n = scanContainsAux ord2 f a s n := by
  intro f
  induction f with
  | zero => intro a s n _; rfl
  | succ f ih =>
    intro a s n hinv
    obtain ⟨m, cnt⟩ := a
    rw [inv1_mk] at hinv
    obtain ⟨hsib, hsub⟩ := hinv
    rw [containsAux, scanContainsAux]
    by_cases hs : s = []
    · simp [hs]
    · simp only [hs, if_false, children_mk]
      cases hfind2 : (ord2 s m).find? (fun pc => decide (0 < prefixLen pc.1 s)) with
      | none =>
        have hno : ∀ x ∈ m, ¬ 0 < prefixLen x.1 s := by
          intro x hx hpos
          exact find_order_none h2 hfind2 hx (by simpa using hpos)
        cases hfast : (if s.length < m.length then probeDown m s else none) with
        | some ic =>
          obtain ⟨i, x⟩ := ic
          have hp : probeDown m s = some (i, x) := by
            split at hfast
            · exact hfast
            · cases hfast
          obtain ⟨h0, hi, hg⟩ := probeDown_some hp
          have := hno _ (mem_of_getChild hg)
          rw [prefixLen_take_eq rfl hi] at this
          exact absurd h0 this
        | none =>
          simp only
          cases hfind1 : (ord1 s m).find? (fun pc => decide (0 < prefixLen pc.1 s)) with
          | none => rfl
          | some z =>
            obtain ⟨hz, hpz⟩ := find_order_some h1 hfind1
            exact absurd (by simpa using hpz) (hno z hz)
      | some y =>
        obtain ⟨hy, hpy⟩ := find_order_some h2 hfind2
        have hypos : 0 < prefixLen y.1 s := by simpa using hpy
        simp only
        cases hfast : (if s.length < m.length then probeDown m s else none) with
        | some ic =>
          obtain ⟨i, x⟩ := ic
          have hp : probeDown m s = some (i, x) := by
            split at hfast
            · exact hfast
            · cases hfast
          obtain ⟨h0, hi, hg⟩ := probeDown_some hp
          have hpl : prefixLen (s.take i) s = i := prefixLen_take_eq rfl hi
          have heq := siblingsOK_match_unique hsib (mem_of_getChild hg) hy
            (by simp only; omega) hypos
          subst heq
          simp only [hpl]
          exact ih x _ 1 (hsub _ hy)
        | none =>
          simp only
          cases hfind1 : (ord1 s m).find? (fun pc => decide (0 < prefixLen pc.1 s)) with
          | none => exact absurd hpy (find_order_none h1 hfind1 hy)
          | some z =>
            obtain ⟨hz, hpz⟩ := find_order_some h1 hfind1
            have heq := siblingsOK_match_unique hsib hz hy (by simpa using hpz) hypos
            subst heq
            exact ih z.2 _ 1 (hsub _ hz)

/-! ### `Merge` leaves the receiver as it is -/

theorem distinctList_iff (m : List (Str × Set)) :
    Set.keysDistinct.distinctList m = true ↔ ∀ pc ∈ m, pc.2.keysDistinct = true := by
  induction m with
  | nil => simp [Set.keysDistinct.distinctList]
  | cons pc rest ih =>
    obtain ⟨k, c⟩ := pc
    simp [Set.keysDistinct.distinctList, ih]

theorem keysDistinct_mk (m : List (Str × Set)) (n : Int) :
    (Set.mk m n).keysDistinct = true
      ↔ (m.map Prod.fst).Nodup ∧ ∀ pc ∈ m, pc.2.keysDistinct = true := by
  simp [Set.keysDistinct, distinctList_iff]

theorem height_mk (m : List (Str × Set)) (n : Int) :
    (Set.mk m n).height = Set.height.heightList m + 1 := by
  simp [Set.height]

theorem height_le_of_mem {m : List (Str × Set)} {pc : Str × Set} (h : pc ∈ m) :
    pc.2.height ≤ Set.height.heightList m := by
  induction m with
  | nil => cases h
  | cons x rest ih =>
    obtain ⟨k, c⟩ := x
    simp only [Set.height.heightList]
    rcases List.mem_cons.mp h with e | e
    · rw [e]; exact Nat.le_max_left _ _
    · exact Nat.le_trans (ih e) (Nat.le_max_right _ _)

theorem set_eta (a : Set) : Set.mk a.children a.count = a := by
  cases a; rfl

/-- Writing a child back under its own key changes nothing in a map. -/
theorem putChild_same {m : List (Str × Set)} (hm : (m.map Prod.fst).Nodup) {k : Str}
    {c : Set} (hg : getChild m k = some c) : putChild m k c = m := by
  have hmem := mem_of_getChild hg
  have hany : m.any (fun pc => decide (pc.1 = k)) = true :=
    List.any_eq_true.mpr ⟨(k, c), hmem, by simp⟩
  unfold putChild
  rw [if_pos hany]
  conv_rhs => rw [← List.map_id m]
  apply List.map_congr_left
  intro pc hpc
  by_cases hk : pc.1 = k
  · have : pc = (k, c) := List.inj_on_of_nodup_map hm hpc hmem hk
    simp [this]
  · simp [hk]

theorem mergeAux_id {ord : Order} (hord : ord.Valid) :
    ∀ (f : Nat) (a other : Option Set), (other.map Set.height).getD 0 < f →
      a.all Set.keysDistinct = true → mergeAux ord f a other = some a := by
  intro f
  induction f with
  | zero => intro a other hf; omega
  | succ f ih =>
    intro a other hf hwf
    cases a with
    | none => simp only [mergeAux]
    | some a =>
      cases other with
      | none => simp only [mergeAux]
      | some o =>
        simp only [mergeAux]
        have hall : ∀ l : List (Str × Set), (∀ pc ∈ l, pc.2.height < f) →
            l.foldl
              (fun (acc : Option Set) pc =>
                acc.bind (fun cur =>
                  (mergeAux ord f (getChild cur.children pc.1) (some pc.2)).map
                    (fun r =>
                      match r with
                      | some c => Set.mk (putChild cur.children pc.1 c) cur.count
                      | none => cur)))
              (some a) = some a := by
          intro l
          induction l with
          | nil => intro _; rfl
          | cons pc rest ihl =>
            intro hl
            have hwf1 : a.keysDistinct = true := by simpa using hwf
            have hwf2 := (keysDistinct_mk a.children a.count).mp (by rw [set_eta]; exact hwf1)
            have hstep : (mergeAux ord f (getChild a.children pc.1) (some pc.2))
                = some (getChild a.children pc.1) := by
              apply ih
              · simpa using hl pc (List.mem_cons_self _ _)
              · cases hg : getChild a.children pc.1 with
                | none => rfl
                | some c => simpa using hwf2.2 _ (mem_of_getChild hg)
            rw [List.foldl_cons, Option.some_bind, hstep, Option.map_some']
            cases hg : getChild a.children pc.1 with
            | none => exact ihl (fun x hx => hl x (List.mem_cons_of_mem _ hx))
            | some c =>
              simp only [putChild_same hwf2.1 hg, set_eta]
              exact ihl (fun x hx => hl x (List.mem_cons_of_mem _ hx))
        rw [hall]
        · rfl
        · intro pc hpc
          have hmem : pc ∈ o.children := (hord [] o.children).mem_iff.mp hpc
          have h1 := height_le_of_mem hmem
          have h2 : o.height = Set.height.heightList o.children + 1 := by
            cases o; rfl
          simp only [Option.map_some', Option.getD_some] at hf
          omega

/-! ### Counts stay within bounds -/

theorem countsWithin_mono {lo hi hi1 : Int} (hh : hi ≤ hi1) :
    ∀ (n : Nat) (a : Set), a.height ≤ n → a.countsWithin lo hi = true →
      a.countsWithin lo hi1 = true := by
  intro n
  induction n with
  | zero =>
    intro a ha
    obtain ⟨m, c⟩ := a
    rw [height_mk] at ha
    omega
  | succ n ih =>
    intro a ha h
    obtain ⟨m, c⟩ := a
    rw [height_mk] at ha
    rw [countsWithin_mk] at h ⊢
    refine ⟨⟨h.1.1, lt_of_lt_of_le h.1.2 hh⟩, ?_⟩
    intro pc hpc
    have := height_le_of_mem hpc
    exact ih pc.2 (by omega) (h.2 pc hpc)

theorem countsNonneg_of_within {hi : Int} :
    ∀ (n : Nat) (a : Set), a.height ≤ n → a.countsWithin 0 hi = true →
      a.countsNonneg = true := by
  intro n
  induction n with
  | zero =>
    intro a ha
    obtain ⟨m, c⟩ := a
    rw [height_mk] at ha
    omega
  | succ n ih =>
    intro a ha h
    obtain ⟨m, c⟩ := a
    rw [height_mk] at ha
    rw [countsWithin_mk] at h
    rw [countsNonneg_mk]
    refine ⟨h.1.1, ?_⟩
    intro pc hpc
    have := height_le_of_mem hpc
    exact ih pc.2 (by omega) (h.2 pc hpc)

theorem within_putChild {lo hi : Int} {m : List (Str × Set)}
    (hm : ∀ pc ∈ m, pc.2.countsWithin lo hi = true)
    (k : Str) {c : Set} (hc : c.countsWithin lo hi = true) :
    ∀ pc ∈ putChild m k c, pc.2.countsWithin lo hi = true := by
  intro pc hpc
  rcases mem_putChild hpc with h | ⟨h, _⟩
  · rw [h]; exact hc
  · exact hm pc h

theorem within_deleteChild {lo hi : Int} {m : List (Str × Set)}
    (hm : ∀ pc ∈ m, pc.2.countsWithin lo hi = true)
    (k : Str) : ∀ pc ∈ deleteChild m k, pc.2.countsWithin lo hi = true :=
  fun pc hpc => hm pc (mem_deleteChild.mp hpc).1

theorem within_children {lo hi : Int} {a : Set} (h : a.countsWithin lo hi = true) :
    ∀ pc ∈ a.children, pc.2.countsWithin lo hi = true := by
  obtain ⟨m, cnt⟩ := a
  exact ((countsWithin_mk lo hi m cnt).mp h).2

theorem within_count {lo hi : Int} {a : Set} (h : a.countsWithin lo hi = true) :
    lo ≤ a.count ∧ a.count < hi := by
  obtain ⟨m, cnt⟩ := a
  exact ((countsWithin_mk lo hi m cnt).mp h).1

/-- While every count lies in `[0, hi)` and `hi` is at most `maxInt`, the
increment of `Insert` does not wrap around: afterwards every count lies in
`[0, hi + 1)`. -/
theorem insertAux_within {ord : Order} (hord : ord.Valid) {hi : Int} (h0 : 0 < hi)
    (h1 : hi ≤ maxInt) :
    ∀ (f : Nat) (a : Set) (s : Str) (a1 : Set), a.countsWithin 0 hi = true →
      insertAux ord f a s = some a1 → a1.countsWithin 0 (hi + 1) = true := by
  have hup : ∀ x : Set, x.countsWithin 0 hi = true → x.countsWithin 0 (hi + 1) = true :=
    fun x hx => countsWithin_mono (by omega) x.height x (le_refl _) hx
  intro f
  induction f with
  | zero => intro a s a1 _ h; cases h
  | succ f ih =>
    intro a s a1 hnn h
    obtain ⟨m, cnt⟩ := a
    rw [countsWithin_mk] at hnn
    obtain ⟨⟨hc0, hc1⟩, hsub⟩ := hnn
    have hcnt : 0 ≤ cnt ∧ cnt < hi + 1 := ⟨hc0, by omega⟩
    have hsub1 : ∀ pc ∈ m, pc.2.countsWithin 0 (hi + 1) = true :=
      fun pc hpc => hup _ (hsub pc hpc)
    have hleaf : (Set.mk [] 1).countsWithin 0 (hi + 1) = true := by
      rw [countsWithin_mk]
      exact ⟨⟨by omega, by omega⟩, by simp⟩
    rw [insertAux] at h
    by_cases hs : s = []
    · simp only [hs, if_true, children_mk, count_mk, Option.some.injEq] at h
      have hw : wrapInt (cnt + 1) = cnt + 1 :=
        wrapInt_succ (le_trans (by decide) hc0) (by omega)
      rw [← h, countsWithin_mk, hw]
      exact ⟨⟨by omega, by omega⟩, hsub1⟩
    · simp only [hs, if_false, children_mk, count_mk] at h
      by_cases hlen : s.length < m.length
      · simp only [hlen, if_true] at h
        cases hp : probeDown m s with
        | none =>
          simp only [hp, Option.some.injEq] at h
          rw [← h, countsWithin_mk]
          exact ⟨hcnt, within_putChild hsub1 s hleaf⟩
        | some ic =>
          obtain ⟨i, x⟩ := ic
          obtain ⟨_, _, hg⟩ := probeDown_some hp
          simp only [hp] at h
          cases hr : insertAux ord f x (s.drop i) with
          | none => simp [hr] at h
          | some c1 =>
            simp only [hr, Option.map_some', Option.some.injEq] at h
            rw [← h, countsWithin_mk]
            exact ⟨hcnt, within_putChild hsub1 _
              (ih x _ c1 (hsub _ (mem_of_getChild hg)) hr)⟩
      · simp only [hlen, if_false] at h
        cases hfind : (ord s m).find? (fun pc => decide (0 < prefixLen s pc.1)) with
        | none =>
          simp only [hfind, Option.some.injEq] at h
          rw [← h, countsWithin_mk]
          exact ⟨hcnt, within_putChild hsub1 s hleaf⟩
        | some y =>
          obtain ⟨hy, _⟩ := find_order_some hord hfind
          simp only [hfind] at h
          split at h
          · rename_i hsplit
            have hch : (Set.mk (putChild [] (y.1.drop (prefixLen s y.1)) y.2) 0).countsWithin
                0 hi = true := by
              rw [countsWithin_mk]
              refine ⟨⟨le_refl _, h0⟩, ?_⟩
              intro x hx
              rw [putChild_nil] at hx
              rw [List.mem_singleton.mp hx]
              exact hsub y hy
            cases hr : insertAux ord f
                (Set.mk (putChild [] (y.1.drop (prefixLen s y.1)) y.2) 0)
                (s.drop (prefixLen s y.1)) with
            | none => simp [hr] at h
            | some c1 =>
              simp only [hr, Option.map_some', Option.some.injEq] at h
              rw [← h, countsWithin_mk]
              exact ⟨hcnt, within_putChild
                (within_putChild (within_deleteChild hsub1 _) _ (hup _ hch)) _
                (ih _ _ c1 hch hr)⟩
          · cases hr : insertAux ord f y.2 (s.drop (prefixLen s y.1)) with
            | none => simp [hr] at h
            | some c1 =>
              simp only [hr, Option.map_some', Option.some.injEq] at h
              rw [← h, countsWithin_mk]
              exact ⟨hcnt, within_putChild hsub1 _ (ih _ _ c1 (hsub _ hy) hr)⟩

theorem removeAux_within {ord : Order} (hord : ord.Valid) {hi : Int} :
    ∀ (f : Nat) (a : Set) (s : Str) (r : Removed), a.countsWithin 0 hi = true →
      removeAux ord f a s = some r → r.node.countsWithin 0 hi = true := by
  intro f
  induction f with
  | zero => intro a s r _ h; cases h
  | succ f ih =>
    intro a s r hnn h
    obtain ⟨m, cnt⟩ := a
    have hnn0 := hnn
    rw [countsWithin_mk] at hnn
    obtain ⟨hcnt, hsub⟩ := hnn
    rw [removeAux] at h
    by_cases hs : s = []
    · simp only [hs, if_true, children_mk, count_mk] at h
      have hdec : 0 < cnt → (Set.mk m (cnt - 1)).countsWithin 0 hi = true := by
        intro hpos
        rw [countsWithin_mk]
        exact ⟨⟨by omega, by omega⟩, hsub⟩
      split at h
      · rename_i hpos
        split at h
        · simp only [Option.some.injEq] at h
          rw [← h]; exact hdec hpos
        · simp only [Option.some.injEq] at h
          rw [← h]; exact hdec hpos
      · simp only [Option.some.injEq] at h
        rw [← h]; exact hnn0
    · simp only [hs, if_false, children_mk, count_mk] at h
      have hstep : ∀ (k : Str) (x : Set) (t : Str), (k, x) ∈ m →
          (removeAux ord f x t).map (fun r0 : Removed =>
            (⟨.mk (if r0.detached then deleteChild m k else putChild m k r0.node) cnt,
              r0.old, false⟩ : Removed)) = some r → r.node.countsWithin 0 hi = true := by
        intro k x t hx hr
        cases hr0 : removeAux ord f x t with
        | none => simp [hr0] at hr
        | some r0 =>
          simp only [hr0, Option.map_some', Option.some.injEq] at hr
          rw [← hr]
          simp only
          rw [countsWithin_mk]
          refine ⟨hcnt, ?_⟩
          have hr0n := ih x t r0 (hsub _ hx) hr0
          cases hd : r0.detached with
          | true => simpa using within_deleteChild hsub k
          | false => simpa using within_putChild hsub k hr0n
      by_cases hlen : s.length < m.length
      · simp only [hlen, if_true] at h
        cases hp : probeUp m s with
        | none =>
          simp only [hp, Option.some.injEq] at h
          rw [← h]; exact hnn0
        | some ic =>
          obtain ⟨i, x⟩ := ic
          obtain ⟨_, _, hg⟩ := probeUp_some hp
          simp only [hp] at h
          exact hstep _ x _ (mem_of_getChild hg) h
      · simp only [hlen, if_false] at h
        cases hfind : (ord s m).find? (fun pc => decide (0 < prefixLen pc.1 s)) with
        | none =>
          simp only [hfind, Option.some.injEq] at h
          rw [← h]; exact hnn0
        | some y =>
          obtain ⟨hy, _⟩ := find_order_some hord hfind
          simp only [hfind] at h
          exact hstep y.1 y.2 _ hy h

theorem mergeAux_within {ord : Order} (hord : ord.Valid) {hi : Int} :
    ∀ (f : Nat) (a other : Option Set), (other.map Set.height).getD 0 < f →
      a.all (Set.countsWithin 0 hi) = true →
      ∃ r, mergeAux ord f a other = some r ∧ r.isSome = a.isSome ∧
        r.all (Set.countsWithin 0 hi) = true := by
  intro f
  induction f with
  | zero => intro a other hf; omega
  | succ f ih =>
    intro a other hf hnn
    cases a with
    | none => exact ⟨none, by simp only [mergeAux], rfl, rfl⟩
    | some a =>
      cases other with
      | none => exact ⟨some a, by simp only [mergeAux], rfl, hnn⟩
      | some o =>
        simp only [mergeAux]
        have hall : ∀ l : List (Str × Set), (∀ pc ∈ l, pc.2.height < f) →
            ∀ cur : Set, cur.countsWithin 0 hi = true →
            ∃ x, l.foldl
              (fun (acc : Option Set) pc =>
                acc.bind (fun cur =>
                  (mergeAux ord f (getChild cur.children pc.1) (some pc.2)).map
                    (fun r =>
                      match r with
                      | some c => Set.mk (putChild cur.children pc.1 c) cur.count
                      | none => cur)))
              (some cur) = some x ∧ x.countsWithin 0 hi = true := by
          intro l
          induction l with
          | nil => intro _ cur hcur; exact ⟨cur, rfl, hcur⟩
          | cons pc rest ihl =>
            intro hl cur hcur
            obtain ⟨r0, hr0, _, hr0n⟩ := ih (getChild cur.children pc.1) (some pc.2)
              (by simpa using hl pc (List.mem_cons_self _ _))
              (by
                cases hg : getChild cur.children pc.1 with
                | none => rfl
                | some c => simpa using within_children hcur _ (mem_of_getChild hg))
            rw [List.foldl_cons, Option.some_bind, hr0, Option.map_some']
            apply ihl (fun x hx => hl x (List.mem_cons_of_mem _ hx))
            cases r0 with
            | none => exact hcur
            | some c =>
              simp only
              rw [countsWithin_mk]
              exact ⟨within_count hcur,
                within_putChild (within_children hcur) _ (by simpa using hr0n)⟩
        obtain ⟨x, hx, hxn⟩ := hall (ord [] o.children)
          (by
            intro pc hpc
            have hmem : pc ∈ o.children := (hord [] o.children).mem_iff.mp hpc
            have h1 := height_le_of_mem hmem
            have h2 : o.height = Set.height.heightList o.children + 1 := by
              cases o; rfl
            simp only [Option.map_some', Option.getD_some] at hf
            omega)
          a (by simpa using hnn)
        exact ⟨some x, by rw [hx]; rfl, rfl, by simpa using hxn⟩

theorem stepCall_within {ord : Order} (hord : ord.Valid) {hi : Int} (h0 : 0 < hi) (a : Set)
    (c : Call) (ha : a.countsWithin 0 hi = true) (hroom : c.isInsert = true → hi ≤ maxInt) :
    ∃ a1, stepCall ord a c = some a1 ∧
      a1.countsWithin 0 (hi + if c.isInsert = true then 1 else 0) = true := by
  cases c with
  | insert s =>
    have ht := insertAux_total ord _ a s (Nat.lt_succ_self _)
    obtain ⟨a1, h1⟩ := Option.isSome_iff_exists.mp ht
    refine ⟨a1, h1, ?_⟩
    simp only [Call.isInsert, if_true]
    exact insertAux_within hord h0 (hroom rfl) _ a s a1 ha h1
  | remove s =>
    have ht := removeAux_total ord _ a s (Nat.lt_succ_self _)
    obtain ⟨r, h1⟩ := Option.isSome_iff_exists.mp ht
    refine ⟨r.node, ?_, ?_⟩
    · simp only [stepCall, Remove, h1, Option.map_some']
    · simp only [Call.isInsert, Bool.false_eq_true, if_false, add_zero]
      exact removeAux_within hord _ a s r ha h1
  | merge other =>
    obtain ⟨r, h1, h2, h3⟩ := mergeAux_within hord _ (some a) other (Nat.lt_succ_self _)
      (by simpa using ha)
    cases r with
    | none => simp at h2
    | some x =>
      refine ⟨x, ?_, ?_⟩
      · simp only [stepCall, Merge, h1, Option.map_some', Option.getD_some]
      · simp only [Call.isInsert, Bool.false_eq_true, if_false, add_zero]
        simpa using h3

/-- A sequence of calls from a tree with counts in `[0, hi)`: as long as the
`Insert` calls cannot push a count beyond `maxInt`, every call returns and the
counts stay in `[0, hi + number of Insert calls)`. -/
theorem runCalls_within :
    ∀ (calls : List (Order × Call)) (a : Set) (hi : Int), (∀ c ∈ calls, c.1.Valid) →
      0 < hi → a.countsWithin 0 hi = true →
      hi + (calls.countP (fun c => c.2.isInsert) : Nat) ≤ maxInt + 1 →
      ∃ a1, runCalls a calls = some a1 ∧
        a1.countsWithin 0 (hi + (calls.countP (fun c => c.2.isInsert) : Nat)) = true := by
  intro calls
  induction calls with
  | nil =>
    intro a hi _ _ ha _
    exact ⟨a, rfl, by simpa using ha⟩
  | cons c rest ih =>
    intro a hi hv h0 ha hb
    obtain ⟨ord, call⟩ := c
    rw [List.countP_cons] at hb ⊢
    have hroom : call.isInsert = true → hi ≤ maxInt := by
      intro e
      simp only [e, if_true] at hb
      push_cast at hb
      omega
    obtain ⟨a1, h1, h2⟩ := stepCall_within (hv _ (List.mem_cons_self _ _)) h0 a call ha hroom
    by_cases e : call.isInsert = true
    · simp only [e, if_true] at h2 hb ⊢
      push_cast at hb ⊢
      obtain ⟨a2, h3, h4⟩ := ih a1 (hi + 1) (fun x hx => hv x (List.mem_cons_of_mem _ hx))
        (by omega) h2 (by omega)
      refine ⟨a2, by simp only [runCalls, h1, Option.some_bind, h3], ?_⟩
      rw [← h4]
      congr 1
      ring
    · simp only [e, Bool.false_eq_true, if_false, add_zero, Nat.cast_zero] at h2 hb ⊢
      obtain ⟨a2, h3, h4⟩ := ih a1 hi (fun x hx => hv x (List.mem_cons_of_mem _ hx))
        h0 h2 hb
      exact ⟨a2, by simp only [runCalls, h1, Option.some_bind, h3], h4⟩

/-- The call `Insert("")` on a tree: the root count is incremented modulo
`2^64`. -/
theorem stepCall_insert_nil (ord : Order) (m : List (Str × Set)) (c : Int) :
    stepCall ord (.mk m c) (.insert []) = some (.mk m (wrapInt (c + 1))) := by
  simp [stepCall, Insert, insertAux, children_mk, count_mk]

/-- The calls `Insert("")` repeated until the root count, starting from `c`,
has passed `maxInt`: the count ends at `minInt`. -/
theorem runCalls_insert_nil_wraps (ord : Order) (m : List (Str × Set)) :
    ∀ (n : Nat) (c : Int), 0 < n → minInt ≤ c → c + (n : Int) = maxInt + 1 →
      runCalls (.mk m c) (List.replicate n (ord, Call.insert [])) = some (.mk m minInt) := by
  intro n
  induction n with
  | zero => intro c h; omega
  | succ n ih =>
    intro c _ hc hsum
    rw [List.replicate_succ]
    simp only [runCalls, stepCall_insert_nil, Option.some_bind]
    by_cases hn : n = 0
    · subst hn
      have : c = maxInt := by push_cast at hsum; omega
      rw [this, wrapInt_maxInt_succ]
      rfl
    · have hlt : c < maxInt := by push_cast at hsum; omega
      rw [wrapInt_succ hc hlt]
      exact ih (c + 1) (by omega) (by omega) (by push_cast at hsum; omega)

/-! ### Node counts under `Insert` -/

theorem sizeList_append (l1 l2 : List (Str × Set)) :
    Set.size.sizeList (l1 ++ l2) = Set.size.sizeList l1 + Set.size.sizeList l2 := by
  induction l1 with
  | nil => simp [Set.size.sizeList]
  | cons pc rest ih =>
    obtain ⟨k, c⟩ := pc
    rw [List.cons_append]
    simp only [Set.size.sizeList]
    rw [ih]
    omega

theorem sizeList_cons (k : Str) (c : Set) (rest : List (Str × Set)) :
    Set.size.sizeList ((k, c) :: rest) = c.size + Set.size.sizeList rest := by
  simp [Set.size.sizeList]

theorem sizeList_nil : Set.size.sizeList [] = 0 := by
  simp [Set.size.sizeList]

theorem size_mk (m : List (Str × Set)) (n : Int) :
    (Set.mk m n).size = Set.size.sizeList m + 1 := by
  simp [Set.size]

/-- After a split at `n`, the new label `p[:n]` is not a key of the rest of
the map. -/
theorem split_key_fresh {m l1 l2 : List (Str × Set)} (hm : siblingsOK m) {p : Str} {c : Set}
    (hmem : (p, c) ∈ m) (hl : m = l1 ++ (p, c) :: l2) {n : Nat} (h0 : 0 < n)
    (hn : n < p.length) : ∀ x ∈ l1 ++ l2, x.1 ≠ p.take n := by
  intro x hx e
  have hxm : x ∈ m := by
    rw [hl]
    rcases List.mem_append.mp hx with h | h
    · exact List.mem_append_left _ h
    · exact List.mem_append_right _ (List.mem_cons_of_mem _ h)
  have hxp : 0 < prefixLen x.1 p := by
    rw [e, prefixLen_take_eq rfl (Nat.le_of_lt hn)]; exact h0
  have hxe := siblingsOK_unique hm hxm hmem hxp
  have : p.take n = p := by rw [← e, hxe]
  have := congrArg List.length this
  rw [List.length_take] at this
  omega

theorem insertAux_size {ord : Order} (hord : ord.Valid) :
    ∀ (f : Nat) (a : Set) (s : Str), s.length < f → a.inv1 = true →
      ∃ a1, insertAux ord f a s = some a1 ∧ a.size ≤ a1.size ∧ a1.size ≤ a.size + 2 := by
  intro f
  induction f with
  | zero => intro a s hf; omega
  | succ f ih =>
    intro a s hf hinv
    obtain ⟨m, cnt⟩ := a
    rw [inv1_mk] at hinv
    obtain ⟨hsib, hsub⟩ := hinv
    by_cases hs : s = []
    · subst hs
      refine ⟨.mk m (wrapInt (cnt + 1)), by simp [insertAux, children_mk, count_mk], ?_, ?_⟩ <;>
        simp [size_mk]
    · have hspos : 0 < s.length := List.length_pos.mpr hs
      rw [insertAux]
      simp only [hs, if_false, children_mk, count_mk]
      have hleaf : ∀ m1 : List (Str × Set), m1 = m ++ [(s, Set.mk [] 1)] →
          (Set.mk m cnt).size ≤ (Set.mk m1 cnt).size
            ∧ (Set.mk m1 cnt).size ≤ (Set.mk m cnt).size + 2 := by
        intro m1 h
        rw [h, size_mk, size_mk, sizeList_append, sizeList_cons, size_mk, sizeList_nil]
        omega
      have hupd : ∀ (l1 l2 : List (Str × Set)) (k : Str) (c c1 : Set),
          c.size ≤ c1.size → c1.size ≤ c.size + 2 →
          (Set.mk (l1 ++ (k, c) :: l2) cnt).size ≤ (Set.mk (l1 ++ (k, c1) :: l2) cnt).size
            ∧ (Set.mk (l1 ++ (k, c1) :: l2) cnt).size
                ≤ (Set.mk (l1 ++ (k, c) :: l2) cnt).size + 2 := by
        intro l1 l2 k c c1 h1 h2
        rw [size_mk, size_mk, sizeList_append, sizeList_append, sizeList_cons, sizeList_cons]
        omega
      by_cases hlen : s.length < m.length
      · simp only [hlen, if_true]
        cases hp : probeDown m s with
        | some ic =>
          obtain ⟨i, c⟩ := ic
          obtain ⟨h0, hi, hg⟩ := probeDown_some hp
          have hmem := mem_of_getChild hg
          obtain ⟨c1, hc1, hlo, hhi⟩ := ih c (s.drop i) (by rw [List.length_drop]; omega)
            (hsub _ hmem)
          have hkl : (s.take i).length = i := by rw [List.length_take]; omega
          have hkne : s.take i ≠ [] := by
            intro e; rw [e] at hkl; simp at hkl; omega
          obtain ⟨l1, l2, hm, hf1, hf2⟩ := siblingsOK_split hsib hkne hmem
          refine ⟨.mk (putChild m (s.take i) c1) cnt, by simp [hc1], ?_⟩
          rw [hm, putChild_split c c1 hf1 hf2]
          exact hupd l1 l2 _ c c1 hlo hhi
        | none =>
          refine ⟨.mk (putChild m s (.mk [] 1)) cnt, rfl, ?_⟩
          have hnone := probeDown_none hp hspos (le_refl _)
          rw [List.take_length] at hnone
          exact hleaf _ (putChild_fresh _ (getChild_eq_none_iff.mp hnone))
      · simp only [hlen, if_false]
        cases hfind : (ord s m).find? (fun pc => decide (0 < prefixLen s pc.1)) with
        | none =>
          refine ⟨.mk (putChild m s (.mk [] 1)) cnt, rfl, ?_⟩
          have hfresh : ∀ pc ∈ m, pc.1 ≠ s := by
            intro pc hpc e
            have := find_order_none hord hfind hpc
            rw [e, prefixLen_self] at this
            exact this (by simpa using hspos)
          exact hleaf _ (putChild_fresh _ hfresh)
        | some pc =>
          obtain ⟨p, c⟩ := pc
          obtain ⟨hmem, hpp⟩ := find_order_some hord hfind
          have hn0 : 0 < prefixLen s p := by simpa using hpp
          have hnle : prefixLen s p ≤ s.length := prefixLen_le_left s p
          have hnlp : prefixLen s p ≤ p.length := prefixLen_le_right s p
          have hpne : p ≠ [] := by
            intro e; rw [e, prefixLen_nil_right] at hn0; omega
          obtain ⟨l1, l2, hm, hf1, hf2⟩ := siblingsOK_split hsib hpne hmem
          simp only
          by_cases hsplit : prefixLen s p < p.length
          · simp only [hsplit, if_true, putChild_nil]
            have hkfresh := split_key_fresh hsib hmem hm hn0 hsplit
            have hnil : ∀ pc ∈ ([] : List (Str × Set)), pc.1 ≠ p.take (prefixLen s p) := by
              simp
            have hrec : ∃ c1, insertAux ord f (.mk [(p.drop (prefixLen s p), c)] 0)
                  (s.drop (prefixLen s p)) = some c1
                ∧ c.size + 1 ≤ c1.size ∧ c1.size ≤ c.size + 2 := by
              obtain ⟨g, rfl⟩ : ∃ g, f = g + 1 := ⟨f - 1, by omega⟩
              by_cases hd : s.drop (prefixLen s p) = []
              · refine ⟨.mk [(p.drop (prefixLen s p), c)] (wrapInt (0 + 1)), ?_, ?_, ?_⟩
                · rw [hd, insertAux]; simp [children_mk, count_mk]
                · simp [size_mk, sizeList_cons, sizeList_nil]
                · simp [size_mk, sizeList_cons, sizeList_nil]
              · refine ⟨_, insertAux_no_overlap hord g _ 0 _ hd ?_, ?_, ?_⟩
                · intro x hx
                  rw [List.mem_singleton.mp hx]
                  exact prefixLen_drop_drop s p
                · simp [size_mk, sizeList_cons, sizeList_nil, sizeList_append]
                · simp [size_mk, sizeList_cons, sizeList_nil, sizeList_append]
            obtain ⟨c1, hc1, hlo, hhi⟩ := hrec
            refine ⟨_, by rw [hc1]; rfl, ?_⟩
            beta_reduce
            rw [hm, deleteChild_split c hf1 hf2, putChild_fresh _ hkfresh,
              putChild_split _ c1 hkfresh hnil]
            rw [size_mk, size_mk, sizeList_append, sizeList_append, sizeList_append,
              sizeList_cons, sizeList_cons, sizeList_nil]
            omega
          · simp only [hsplit, if_false]
            obtain ⟨c1, hc1, hlo, hhi⟩ := ih c (s.drop (prefixLen s p))
              (by rw [List.length_drop]; omega) (hsub _ hmem)
            refine ⟨_, by rw [hc1]; rfl, ?_⟩
            beta_reduce
            rw [hm, putChild_split c c1 hf1 hf2]
            exact hupd l1 l2 _ c c1 hlo hhi

/-! ### Where `Insert` splits an edge -/

/-- One step of `Insert`: when `k` is a non-empty prefix of `s` and the only
overlapping label, both branches descend into its child with `s[len(k):]`, and
the child is written back under `k`. -/
theorem insertAux_step {ord : Order} (hord : ord.Valid) {m : List (Str × Set)}
    {s k : Str} {c : Set} (hk : k ≠ []) (hpre : k <+: s) (hom : OnlyMatch m s k c)
    (fuel : Nat) (cnt : Int) :
    insertAux ord (fuel + 1) (.mk m cnt) s
      = (insertAux ord fuel c (s.drop k.length)).map (fun c1 =>
          .mk (putChild m k c1) cnt) := by
  have hks : prefixLen k s = k.length := prefixLen_of_initial hpre
  have hsk : prefixLen s k = k.length := by rw [prefixLen_comm]; exact hks
  have hkpos : 0 < prefixLen k s := by rw [hks]; exact List.length_pos.mpr hk
  have hkl : k.length ≤ s.length := hpre.length_le
  have hs : s ≠ [] := by
    rintro rfl; exact hk (List.prefix_nil.mp hpre)
  rw [insertAux]
  simp only [hs, if_false, children_mk, count_mk]
  by_cases hlen : s.length < m.length
  · simp only [hlen, if_true]
    cases hp : probeDown m s with
    | some ic =>
      obtain ⟨i, x⟩ := ic
      obtain ⟨h0, h1, hg⟩ := probeDown_some hp
      have hmem := mem_of_getChild hg
      have hpl : prefixLen (s.take i) s = i := prefixLen_take_eq rfl h1
      have heq := hom.2 _ hmem (by simp only; omega)
      obtain ⟨e1, e2⟩ := Prod.mk.inj heq
      have hi : k.length = i := by rw [← e1, List.length_take]; omega
      simp only [e1, e2, hi]
    | none =>
      have hnone := probeDown_none hp (List.length_pos.mpr hk) hkl
      rw [← List.prefix_iff_eq_take.mp hpre] at hnone
      exact absurd rfl (getChild_eq_none_iff.mp hnone _ hom.1)
  · simp only [hlen, if_false]
    cases hfind : (ord s m).find? (fun pc => decide (0 < prefixLen s pc.1)) with
    | none =>
      have := find_order_none hord hfind hom.1
      exact absurd (by simp only [hsk]; simpa using List.length_pos.mpr hk) this
    | some y =>
      obtain ⟨hy, hpy⟩ := find_order_some hord hfind
      have hpy1 : 0 < prefixLen y.1 s := by
        rw [prefixLen_comm]; simpa using hpy
      have heq := hom.2 y hy hpy1
      subst heq
      simp only [hsk, Nat.lt_irrefl, if_false]

/-- The split itself, at the node where it happens: `t` is longer than the
node has children (so the range loop runs), and the edge `p` shares with `t` a
proper, non-empty part of its label. The edge `p` is replaced by the edge
`p[:n]` to a new intermediate node, which keeps the old child under `p[n:]`
and gets one new leaf when `t[n:]` is not empty. -/
theorem insertAux_split_here {ord : Order} (hord : ord.Valid) (f : Nat)
    (m : List (Str × Set)) (cnt : Int) (t p : Str) (c : Set) (hsib : siblingsOK m)
    (hf : t.length < f) (hlen : ¬ t.length < m.length) (hmem : (p, c) ∈ m)
    (h0 : 0 < prefixLen t p) (hsplit : prefixLen t p < p.length) :
    insertAux ord f (.mk m cnt) t
      = some (.mk (putChild (deleteChild m p) (p.take (prefixLen t p))
          (if t.drop (prefixLen t p) = [] then .mk [(p.drop (prefixLen t p), c)] 1
           else .mk [(p.drop (prefixLen t p), c), (t.drop (prefixLen t p), .mk [] 1)] 0)) cnt)
    ∧ (Set.mk (putChild (deleteChild m p) (p.take (prefixLen t p))
          (if t.drop (prefixLen t p) = [] then .mk [(p.drop (prefixLen t p), c)] 1
           else .mk [(p.drop (prefixLen t p), c), (t.drop (prefixLen t p), .mk [] 1)] 0))
          cnt).size
        = (Set.mk m cnt).size + (if t.drop (prefixLen t p) = [] then 1 else 2) := by
  have hnle : prefixLen t p ≤ t.length := prefixLen_le_left t p
  have ht : t ≠ [] := by
    intro e; rw [e, prefixLen_nil_left] at h0; omega
  have hpne : p ≠ [] := by
    intro e; rw [e, prefixLen_nil_right] at h0; omega
  obtain ⟨l1, l2, hm, hf1, hf2⟩ := siblingsOK_split hsib hpne hmem
  have hkfresh := split_key_fresh hsib hmem hm h0 hsplit
  obtain ⟨g, rfl⟩ : ∃ g, f = g + 1 := ⟨f - 1, by have := List.length_pos.mpr ht; omega⟩
  obtain ⟨g1, rfl⟩ : ∃ g1, g = g1 + 1 :=
    ⟨g - 1, by have := List.length_pos.mpr ht; omega⟩
  have hfind : ∃ y, (ord t m).find? (fun pc => decide (0 < prefixLen t pc.1)) = some y := by
    cases hfd : (ord t m).find? (fun pc => decide (0 < prefixLen t pc.1)) with
    | none => exact absurd (by simpa using h0) (find_order_none hord hfd hmem)
    | some y => exact ⟨y, rfl⟩
  obtain ⟨y, hfd⟩ := hfind
  obtain ⟨hy, hpy⟩ := find_order_some hord hfd
  have hyp : y = (p, c) := by
    apply siblingsOK_unique hsib hy hmem
    have h1 : 0 < prefixLen y.1 t := by rw [prefixLen_comm]; simpa using hpy
    have h2 : 0 < prefixLen p t := by rw [prefixLen_comm]; exact h0
    exact prefixLen_pos_trans h1 h2
  subst hyp
  have hnil : ∀ pc ∈ ([] : List (Str × Set)), pc.1 ≠ p.take (prefixLen t p) := by simp
  have hrec : insertAux ord (g1 + 1) (.mk [(p.drop (prefixLen t p), c)] 0)
        (t.drop (prefixLen t p))
      = some (if t.drop (prefixLen t p) = [] then .mk [(p.drop (prefixLen t p), c)] 1
          else .mk [(p.drop (prefixLen t p), c), (t.drop (prefixLen t p), .mk [] 1)] 0) := by
    by_cases hd : t.drop (prefixLen t p) = []
    · rw [if_pos hd, hd, insertAux]
      simp [children_mk, count_mk, wrapInt_one]
    · rw [if_neg hd, insertAux_no_overlap hord g1 _ 0 _ hd ?_]
      · rfl
      · intro x hx
        rw [List.mem_singleton.mp hx]
        exact prefixLen_drop_drop t p
  constructor
  · rw [insertAux]
    simp only [ht, if_false, children_mk, count_mk, hlen, hfd, hsplit, if_true, putChild_nil,
      hrec, Option.map_some']
    rw [hm, deleteChild_split c hf1 hf2, putChild_fresh _ hkfresh,
      putChild_split _ _ hkfresh hnil, putChild_fresh _ hkfresh]
  · rw [hm, deleteChild_split c hf1 hf2, putChild_fresh _ hkfresh]
    by_cases hd : t.drop (prefixLen t p) = []
    · simp only [hd, if_true]
      rw [size_mk, size_mk, sizeList_append, sizeList_append, sizeList_append,
        sizeList_cons, sizeList_cons, sizeList_nil, size_mk, sizeList_cons, sizeList_nil]
      omega
    · simp only [hd, if_false]
      rw [size_mk, size_mk, sizeList_append, sizeList_append, sizeList_append,
        sizeList_cons, sizeList_cons, sizeList_nil, size_mk, sizeList_cons, sizeList_cons,
        sizeList_nil, size_mk, sizeList_nil]
      omega

/-- The split, at any depth: the descent of `Insert` follows the path `ks` of
non-empty labels that spell a prefix of `s`, and splits at the node it
reaches. -/
theorem insertAux_split_at {ord : Order} (hord : ord.Valid) (nd : Set) (t p : Str) (c : Set)
    (hlen : ¬ t.length < nd.children.length) (hmem : (p, c) ∈ nd.children)
    (h0 : 0 < prefixLen t p) (hsplit : prefixLen t p < p.length) :
    ∀ (ks : List Str) (f : Nat) (a : Set), (ks.flatten ++ t).length < f → a.inv1 = true →
      (∀ k ∈ ks, k ≠ []) → a.nodeAt ks = some nd →
      ∃ a1, insertAux ord f a (ks.flatten ++ t) = some a1
        ∧ a1.nodeAt ks = some (.mk (putChild (deleteChild nd.children p)
            (p.take (prefixLen t p))
            (if t.drop (prefixLen t p) = [] then .mk [(p.drop (prefixLen t p), c)] 1
             else .mk [(p.drop (prefixLen t p), c), (t.drop (prefixLen t p), .mk [] 1)] 0))
            nd.count)
        ∧ a1.size = a.size + (if t.drop (prefixLen t p) = [] then 1 else 2) := by
  intro ks
  induction ks with
  | nil =>
    intro f a hf hinv _ hnd
    simp only [Set.nodeAt, Option.some.injEq] at hnd
    subst hnd
    obtain ⟨m, cnt⟩ := a
    rw [inv1_mk] at hinv
    simp only [List.flatten_nil, List.nil_append] at hf ⊢
    rw [children_mk] at hlen hmem
    obtain ⟨h1, h2⟩ := insertAux_split_here hord f m cnt t p c hinv.1 hf hlen hmem h0 hsplit
    exact ⟨_, h1, rfl, h2⟩
  | cons k ks ih =>
    intro f a hf hinv hks hnd
    obtain ⟨m, cnt⟩ := a
    rw [inv1_mk] at hinv
    obtain ⟨hsib, hsub⟩ := hinv
    rw [nodeAt_cons, children_mk] at hnd
    have hk : k ≠ [] := hks k (List.mem_cons_self _ _)
    cases hg : getChild m k with
    | none => rw [hg] at hnd; cases hnd
    | some ch =>
      rw [hg, Option.some_bind] at hnd
      have hchm := mem_of_getChild hg
      simp only [List.flatten_cons, List.append_assoc] at hf ⊢
      have hpre : k <+: k ++ (ks.flatten ++ t) := List.prefix_append _ _
      obtain ⟨g, rfl⟩ : ∃ g, f = g + 1 := ⟨f - 1, by omega⟩
      obtain ⟨c1, hc1, hat, hsz⟩ := ih g ch
        (by simp only [List.length_append] at hf ⊢; have := List.length_pos.mpr hk; omega)
        (hsub _ hchm) (fun x hx => hks x (List.mem_cons_of_mem _ hx)) hnd
      refine ⟨.mk (putChild m k c1) cnt, ?_, ?_, ?_⟩
      · rw [insertAux_step hord hk hpre (onlyMatch_of_initial hsib hchm hk hpre) g cnt,
          List.drop_left, hc1]
        rfl
      · rw [nodeAt_cons, children_mk, getChild_putChild_self, Option.some_bind]
        exact hat
      · obtain ⟨l1, l2, hm, hf1, hf2⟩ := siblingsOK_split hsib hk hchm
        rw [hm, putChild_split ch c1 hf1 hf2, size_mk, size_mk, sizeList_append,
          sizeList_append, sizeList_cons, sizeList_cons, hsz]
        omega

/-! ### The value returned by `remove` -/

theorem getChild_of_mem_nodup {m : List (Str × Set)} (hm : (m.map Prod.fst).Nodup)
    {k : Str} {c : Set} (h : (k, c) ∈ m) : getChild m k = some c := by
  obtain ⟨c1, hc1⟩ := getChild_isSome_of_mem h
  have hmem := mem_of_getChild hc1
  have : (k, c1) = (k, c) := List.inj_on_of_nodup_map hm hmem h rfl
  rw [hc1]
  exact congrArg (fun x => some x.2) this

theorem empty_mk (m : List (Str × Set)) (n : Int) :
    (Set.mk m n).empty = true ↔ m.length = 0 ∧ n = 0 := by
  simp [Set.empty, children_mk, count_mk]

theorem empty_false_of_count_pos (a : Set) (h : 0 < a.count) : a.empty = false := by
  obtain ⟨m, n⟩ := a
  rw [count_mk] at h
  cases he : (Set.mk m n).empty with
  | false => rfl
  | true => have := ((empty_mk m n).mp he).2; omega

theorem empty_false_of_children (a : Set) (h : 0 < a.children.length) : a.empty = false := by
  obtain ⟨m, n⟩ := a
  rw [children_mk] at h
  cases he : (Set.mk m n).empty with
  | false => rfl
  | true => have := ((empty_mk m n).mp he).1; omega

/-- What `remove` returns. When it returns a node, that node was at some path
`q` with a positive count, it is that node with the count decremented, it is
empty, and its edge is deleted from its parent (at the root the caller's
`deleteSelfFn` runs instead). When it returns nil, nothing was detached and
every node that was not empty is still in place and not empty. -/
theorem removeAux_returns {ord : Order} (hord : ord.Valid) :
    ∀ (f : Nat) (a : Set) (s : Str) (r : Removed), a.keysDistinct = true →
      removeAux ord f a s = some r →
      (∀ nd, r.old = some nd → nd.empty = true ∧
          ∃ q n0, a.nodeAt q = some n0 ∧ 0 < n0.count ∧ nd = .mk n0.children (n0.count - 1) ∧
            (q = [] → r.node = nd ∧ r.detached = true) ∧
            (∀ q1 k, q = q1 ++ [k] → r.detached = false ∧
              ∃ parent, a.nodeAt q1 = some parent ∧
                r.node.nodeAt q1 = some (.mk (deleteChild parent.children k) parent.count)))
      ∧ (r.old = none → r.detached = false ∧
          ∀ q n0, a.nodeAt q = some n0 → n0.empty = false →
            ∃ n1, r.node.nodeAt q = some n1 ∧ n1.empty = false) := by
  intro f
  induction f with
  | zero => intro a s r _ h; cases h
  | succ f ih =>
    intro a s r hk h
    obtain ⟨m, cnt⟩ := a
    obtain ⟨hnd, hsub⟩ := (keysDistinct_mk m cnt).mp hk
    have hsame : r = ⟨.mk m cnt, none, false⟩ →
        (∀ nd, r.old = some nd → nd.empty = true ∧
          ∃ q n0, (Set.mk m cnt).nodeAt q = some n0 ∧ 0 < n0.count
            ∧ nd = .mk n0.children (n0.count - 1) ∧
            (q = [] → r.node = nd ∧ r.detached = true) ∧
            (∀ q1 k, q = q1 ++ [k] → r.detached = false ∧
              ∃ parent, (Set.mk m cnt).nodeAt q1 = some parent ∧
                r.node.nodeAt q1 = some (.mk (deleteChild parent.children k) parent.count)))
        ∧ (r.old = none → r.detached = false ∧
          ∀ q n0, (Set.mk m cnt).nodeAt q = some n0 → n0.empty = false →
            ∃ n1, r.node.nodeAt q = some n1 ∧ n1.empty = false) := by
      intro e
      subst e
      refine ⟨(fun nd hn => by cases hn), fun _ => ⟨rfl, fun q n0 h0 h1 => ⟨n0, h0, h1⟩⟩⟩
    rw [removeAux] at h
    by_cases hs : s = []
    · simp only [hs, if_true, children_mk, count_mk] at h
      split at h
      · rename_i hpos
        split at h
        · rename_i hemp
          simp only [Option.some.injEq] at h
          subst h
          refine ⟨fun nd hn => ?_, fun hn => by cases hn⟩
          simp only [Option.some.injEq] at hn
          subst hn
          refine ⟨hemp, [], .mk m cnt, rfl, hpos, rfl, fun _ => ⟨rfl, rfl⟩, ?_⟩
          intro q1 k e
          exact absurd e.symm (List.append_ne_nil_of_right_ne_nil _ (List.cons_ne_nil _ _))
        · rename_i hemp
          simp only [Option.some.injEq] at h
          subst h
          refine ⟨(fun nd hn => by cases hn), fun _ => ⟨rfl, ?_⟩⟩
          intro q n0 h0 h1
          cases q with
          | nil =>
            exact ⟨_, rfl, by simpa using hemp⟩
          | cons k ks =>
            exact ⟨n0, h0, h1⟩
      · simp only [Option.some.injEq] at h
        exact hsame h.symm
    · simp only [hs, if_false, children_mk, count_mk] at h
      have hstep : ∀ (k : Str) (x : Set) (t : Str), getChild m k = some x →
          (removeAux ord f x t).map (fun r0 : Removed =>
            (⟨.mk (if r0.detached then deleteChild m k else putChild m k r0.node) cnt,
              r0.old, false⟩ : Removed)) = some r →
          (∀ nd, r.old = some nd → nd.empty = true ∧
            ∃ q n0, (Set.mk m cnt).nodeAt q = some n0 ∧ 0 < n0.count
              ∧ nd = .mk n0.children (n0.count - 1) ∧
              (q = [] → r.node = nd ∧ r.detached = true) ∧
              (∀ q1 k, q = q1 ++ [k] → r.detached = false ∧
                ∃ parent, (Set.mk m cnt).nodeAt q1 = some parent ∧
                  r.node.nodeAt q1
                    = some (.mk (deleteChild parent.children k) parent.count)))
          ∧ (r.old = none → r.detached = false ∧
            ∀ q n0, (Set.mk m cnt).nodeAt q = some n0 → n0.empty = false →
              ∃ n1, r.node.nodeAt q = some n1 ∧ n1.empty = false) := by
        intro k x t hg hr
        have hxm := mem_of_getChild hg
        cases hr0 : removeAux ord f x t with
        | none => simp [hr0] at hr
        | some r0 =>
          simp only [hr0, Option.map_some', Option.some.injEq] at hr
          obtain ⟨ih1, ih2⟩ := ih x t r0 (hsub _ hxm) hr0
          subst hr
          refine ⟨fun nd hn => ?_, fun hn => ⟨rfl, ?_⟩⟩
          · obtain ⟨hemp, q0, n0, hq0, hpos, hnd0, hroot, hpar⟩ := ih1 nd hn
            refine ⟨hemp, k :: q0, n0, ?_, hpos, hnd0, (fun e => by cases e), ?_⟩
            · rw [nodeAt_cons, children_mk, hg]; exact hq0
            · intro q1 k1 e
              refine ⟨rfl, ?_⟩
              cases q1 with
              | nil =>
                simp only [List.nil_append, List.cons.injEq] at e
                obtain ⟨rfl, rfl⟩ := e
                obtain ⟨hnode, hdet⟩ := hroot rfl
                refine ⟨.mk m cnt, rfl, ?_⟩
                simp only [hdet, if_true, children_mk, count_mk]
                rfl
              | cons k2 q2 =>
                simp only [List.cons_append, List.cons.injEq] at e
                obtain ⟨rfl, rfl⟩ := e
                obtain ⟨hdet, parent, hp1, hp2⟩ := hpar q2 k1 rfl
                refine ⟨parent, ?_, ?_⟩
                · rw [nodeAt_cons, children_mk, hg]; exact hp1
                · simp only [hdet, Bool.false_eq_true, if_false]
                  rw [nodeAt_cons, children_mk, getChild_putChild_self]
                  exact hp2
          · obtain ⟨hdet, hkeep⟩ := ih2 hn
            intro q n0 hq hne
            simp only [hdet, Bool.false_eq_true, if_false]
            cases q with
            | nil =>
              refine ⟨_, rfl, empty_false_of_children _ ?_⟩
              rw [children_mk]
              have h1 := length_putChild_ge m k r0.node
              have h2 := List.length_pos_of_mem hxm
              omega
            | cons k1 ks =>
              rw [nodeAt_cons, children_mk] at hq
              rw [nodeAt_cons, children_mk]
              by_cases hk1 : k1 = k
              · subst hk1
                rw [hg] at hq
                rw [getChild_putChild_self]
                exact hkeep ks n0 hq hne
              · rw [getChild_putChild_ne _ _ hk1]
                exact ⟨n0, hq, hne⟩
      by_cases hlen : s.length < m.length
      · simp only [hlen, if_true] at h
        cases hp : probeUp m s with
        | none =>
          simp only [hp, Option.some.injEq] at h
          exact hsame h.symm
        | some ic =>
          obtain ⟨i, x⟩ := ic
          obtain ⟨_, _, hg⟩ := probeUp_some hp
          simp only [hp] at h
          exact hstep _ x _ hg h
      · simp only [hlen, if_false] at h
        cases hfind : (ord s m).find? (fun pc => decide (0 < prefixLen pc.1 s)) with
        | none =>
          simp only [hfind, Option.some.injEq] at h
          exact hsame h.symm
        | some y =>
          obtain ⟨hy, _⟩ := find_order_some hord hfind
          simp only [hfind] at h
          exact hstep y.1 y.2 _ (getChild_of_mem_nodup hnd hy) h

theorem nodeAt_append_singleton (q : List Str) (k : Str) :
    ∀ a : Set, a.nodeAt (q ++ [k]) = (a.nodeAt q).bind (fun p => getChild p.children k) := by
  induction q with
  | nil =>
    intro a
    rw [List.nil_append, nodeAt_cons, nodeAt_nil, Option.some_bind]
    cases getChild a.children k <;> rfl
  | cons k1 q ih =>
    intro a
    rw [List.cons_append, nodeAt_cons, nodeAt_cons]
    cases getChild a.children k1 with
    | none => rfl
    | some c => simp only [Option.some_bind]; exact ih c

/-! ## The claims -/

open Op

/-- C1. Claim: after Insert calls on an empty Set, `Contains(s)` is false for
every `s` that was not inserted. On the code: after `Insert("dog")` alone,
`Contains("do")` is true. The only child is `"dog"`, `len("do") < 1` fails, the
range loop finds `prefixLen("dog", "do") = 2 > 0` and recurses into the child
with `s[2:] = ""`, whose count is 1. The map has one entry, so the iteration
order plays no part (both orders are evaluated). -/
theorem contains_unInserted_prefix_true :
    (runWith Order.stored Set.zero [insert (bytes "dog")]).bind
        (fun t => Contains Order.stored t (bytes "do")) = some true
    ∧ (runWith Order.reversed Set.zero [insert (bytes "dog")]).bind
        (fun t => Contains Order.reversed t (bytes "do")) = some true := by
  decide

/-- C2. Claim: after `k` inserts and `j` removes of `s`, `containsAtLeast(s, n)`
holds iff `k - j >= n`. On the code: with `k = 2, j = 1` (and with
`k = 1, j = 0`) `containsAtLeast("test", 2)` is true although the net count
is 1: the recursive call is `child.Contains`, so the threshold is reset
to 1 below the root. -/
theorem containsAtLeast_two_after_net_one_true :
    (runWith Order.stored Set.zero
        [insert (bytes "test"), insert (bytes "test"), remove (bytes "test")]).bind
        (fun t => containsAtLeast Order.stored t (bytes "test") 2) = some true
    ∧ (runWith Order.stored Set.zero [insert (bytes "test")]).bind
        (fun t => containsAtLeast Order.stored t (bytes "test") 2) = some true := by
  decide

/-- C3. Claim: a string inserted `m` times is contained until the `m`-th
`Remove`, and not after it. On the code: Insert `"ab"`, `"c"`, `"a"` (the
third takes the substring-probe branch and adds `"a"` beside `"ab"`), then
`Remove("a")` once; `Contains("a")` is still true, in either iteration order,
because the range loop matches the edge `"ab"` on the shared byte. -/
theorem contains_after_last_remove_true :
    (runWith Order.stored Set.zero
        [insert (bytes "ab"), insert (bytes "c"), insert (bytes "a"), remove (bytes "a")]).bind
        (fun t => Contains Order.stored t (bytes "a")) = some true
    ∧ (runWith Order.reversed Set.zero
        [insert (bytes "ab"), insert (bytes "c"), insert (bytes "a"), remove (bytes "a")]).bind
        (fun t => Contains Order.reversed t (bytes "a")) = some true := by
  decide



/-- C4, as stated for every Set with invariant 1, fails where the count to be
incremented is the largest `int`: on the single node with count `maxInt`
(`2^63 - 1`), `Insert("")` wraps the count around to `minInt`, so the
multiplicity of `""` is not one more than before. -/
theorem insert_adds_one_occurrence_counterexample :
    (Set.mk [] maxInt).inv1 = true
    ∧ Insert Order.stored (.mk [] maxInt) [] = some (.mk [] minInt)
    ∧ (Set.mk [] minInt).mult [] ≠ (Set.mk [] maxInt).mult [] + 1 := by
  refine ⟨by decide, rfl, by decide⟩

/-- C4, amended. For every Set that satisfies invariant 1 at every node, every
string `s` such that a node with root path `s`, if there is one, holds a count
other than the largest `int` (a value in `[minInt, maxInt)`), and every
iteration order, `Insert(s)` returns, and in the resulting tree the
multiplicity of `s` (sum of the counts of the nodes whose root path is `s`) is
one more than before while the multiplicity of every other string is
unchanged. -/
theorem insert_adds_one_occurrence (ord : Order) (hord : ord.Valid) (a : Set) (s : Str)
    (hinv : a.inv1 = true) (hroom : a.countsAt s minInt maxInt) :
    ∃ a1, Insert ord a s = some a1 ∧
      ∀ t, a1.mult t = a.mult t + if t = s then 1 else 0 :=
  insertAux_mult hord (s.length + 1) a s (Nat.lt_succ_self _) hinv hroom

/-- C4, at a concrete input: inserting `"abd"` into the tree of `"abc"` and
`"x"` (an edge split) under the reversed iteration order. -/
theorem insert_adds_one_occurrence_witness :
    Order.reversed.Valid
    ∧ (Set.mk [(bytes "abc", .mk [] 1), (bytes "x", .mk [] 1)] 0).inv1 = true
    ∧ (Set.mk [(bytes "abc", .mk [] 1), (bytes "x", .mk [] 1)] 0).countsAt (bytes "abd")
        minInt maxInt
    ∧ ∃ a1, Insert Order.reversed
          (Set.mk [(bytes "abc", .mk [] 1), (bytes "x", .mk [] 1)] 0) (bytes "abd") = some a1 ∧
        ∀ t, a1.mult t
          = (Set.mk [(bytes "abc", .mk [] 1), (bytes "x", .mk [] 1)] 0).mult t
            + if t = bytes "abd" then 1 else 0 :=
  ⟨Order.reversed_valid, by decide, countsAt_of_within (by decide) _,
    insert_adds_one_occurrence Order.reversed Order.reversed_valid _ _ (by decide)
      (countsAt_of_within (by decide) _)⟩

/-- C5, as stated for every Set with invariant 1, fails where the count to be
incremented is the largest `int` or is negative. On the single node with
count `maxInt`, `Insert("")` wraps the count around to `minInt` and
`Contains("")` is false afterwards; on the single node with count `-1`,
`Insert("")` leaves count 0 and `Contains("")` is false afterwards. -/
theorem contains_after_insert_counterexample :
    (Set.mk [] maxInt).inv1 = true
    ∧ Insert Order.stored (.mk [] maxInt) [] = some (.mk [] minInt)
    ∧ Contains Order.stored (.mk [] minInt) [] = some false
    ∧ (Set.mk [] (-1)).inv1 = true
    ∧ Insert Order.stored (.mk [] (-1)) [] = some (.mk [] 0)
    ∧ Contains Order.stored (.mk [] 0) [] = some false := by
  refine ⟨by decide, rfl, by decide, by decide, rfl, by decide⟩

/-- C5, amended. For every Set that satisfies invariant 1 at every node, every
string `s`, the empty string included, such that a node with root path `s`, if
there is one, holds a count in `[0, maxInt)`, and all iteration orders,
`Insert(s)` returns and `Contains(s)` on the resulting tree returns true,
whichever branches the two calls take. -/
theorem contains_after_insert (ord1 ord2 : Order) (h1 : ord1.Valid) (h2 : ord2.Valid)
    (a : Set) (s : Str) (hinv : a.inv1 = true) (hroom : a.countsAt s 0 maxInt) :
    ∃ a1, Insert ord1 a s = some a1 ∧ Contains ord2 a1 s = some true := by
  obtain ⟨a1, h, hc⟩ :=
    insertAux_then_contains h1 h2 (s.length + 1) a s (Nat.lt_succ_self _) hinv hroom
  exact ⟨a1, h, hc _ (Nat.lt_succ_self _)⟩

/-- C5, at a concrete input: `Insert("a")` into the tree of `"ab"` and `"c"`
takes the substring-probe branch; the lookup runs under the reversed order. -/
theorem contains_after_insert_witness :
    Order.stored.Valid ∧ Order.reversed.Valid
    ∧ (Set.mk [(bytes "ab", .mk [] 1), (bytes "c", .mk [] 1)] 0).inv1 = true
    ∧ (Set.mk [(bytes "ab", .mk [] 1), (bytes "c", .mk [] 1)] 0).countsAt (bytes "a")
        0 maxInt
    ∧ ∃ a1, Insert Order.stored
          (Set.mk [(bytes "ab", .mk [] 1), (bytes "c", .mk [] 1)] 0) (bytes "a") = some a1 ∧
        Contains Order.reversed a1 (bytes "a") = some true :=
  ⟨Order.stored_valid, Order.reversed_valid, by decide, countsAt_of_within (by decide) _,
    contains_after_insert Order.stored Order.reversed Order.stored_valid Order.reversed_valid
      _ _ (by decide) (countsAt_of_within (by decide) _)⟩

/-- C6. Claim: `Remove(s)` of a string that was never inserted returns nil and
leaves the tree unchanged. On the code: after `Insert("dog")`, `Remove("do")`
returns a non-nil node and deletes the edge `"dog"`; `Contains("dog")` goes
from true to false. -/
theorem remove_unInserted_prefix_deletes :
    runWith Order.stored Set.zero [insert (bytes "dog")]
        = some (.mk [(bytes "dog", .mk [] 1)] 0)
    ∧ Contains Order.stored (.mk [(bytes "dog", .mk [] 1)] 0) (bytes "dog") = some true
    ∧ Remove Order.stored (.mk [(bytes "dog", .mk [] 1)] 0) (bytes "do")
        = some ⟨.mk [] 0, some (.mk [] 0), false⟩
    ∧ Contains Order.stored (.mk [] 0) (bytes "dog") = some false := by
  refine ⟨rfl, by decide, rfl, by decide⟩



/-- C7. For every Set with invariant 1 at every node and only non-empty edge
labels, every path `ks` of edge labels from the root to a node `nd` of count
`c >= 1`, with `s` the concatenation of `ks`, and every iteration order:
`Remove(s)` returns; every node at another path keeps its count (and no other
node appears or disappears); the node at `ks` is gone from its parent's
children exactly when `c = 1` and it has no children (the root has no parent
edge and stays), and otherwise is still there with count `c - 1` and the same
children. -/
theorem remove_decrements_node (ord : Order) (hord : ord.Valid) (a nd : Set)
    (ks : List Str) (s : Str) (hinv : a.inv1 = true) (hlab : a.labelsNonEmpty = true)
    (hnode : a.nodeAt ks = some nd) (hs : ks.flatten = s) (hpos : 1 ≤ nd.count) :
    ∃ r, Remove ord a s = some r ∧
      (∀ q, q ≠ ks → (r.node.nodeAt q).map Set.count = (a.nodeAt q).map Set.count) ∧
      r.node.nodeAt ks
        = if ks ≠ [] ∧ nd.count = 1 ∧ nd.children.length = 0 then none
          else some (.mk nd.children (nd.count - 1)) := by
  subst hs
  obtain ⟨r, hr, _, h2, h3⟩ :=
    removeAux_path hord ks a nd (ks.flatten.length + 1) hinv hlab hnode (by omega)
      (Nat.lt_succ_self _)
  exact ⟨r, hr, h2, h3⟩

/-- C7, at a concrete input: removing `"ab"` from the tree `"a" -> "b"`, where
the leaf has count 1 and is pruned. -/
theorem remove_decrements_node_witness :
    Order.reversed.Valid
    ∧ (Set.mk [(bytes "a", .mk [(bytes "b", .mk [] 1)] 1)] 0).inv1 = true
    ∧ (Set.mk [(bytes "a", .mk [(bytes "b", .mk [] 1)] 1)] 0).labelsNonEmpty = true
    ∧ (Set.mk [(bytes "a", .mk [(bytes "b", .mk [] 1)] 1)] 0).nodeAt [bytes "a", bytes "b"]
        = some (.mk [] 1)
    ∧ [bytes "a", bytes "b"].flatten = bytes "ab"
    ∧ ∃ r, Remove Order.reversed (Set.mk [(bytes "a", .mk [(bytes "b", .mk [] 1)] 1)] 0)
          (bytes "ab") = some r ∧
        (∀ q, q ≠ [bytes "a", bytes "b"] →
          (r.node.nodeAt q).map Set.count
            = ((Set.mk [(bytes "a", .mk [(bytes "b", .mk [] 1)] 1)] 0).nodeAt q).map Set.count) ∧
        r.node.nodeAt [bytes "a", bytes "b"]
          = if [bytes "a", bytes "b"] ≠ [] ∧ (Set.mk [] 1).count = 1
                ∧ (Set.mk [] 1).children.length = 0 then none
            else some (.mk (Set.mk [] 1).children ((Set.mk [] 1).count - 1)) :=
  ⟨Order.reversed_valid, by decide, by decide, rfl, by decide,
    remove_decrements_node Order.reversed Order.reversed_valid _ _ _ _
      (by decide) (by decide) rfl (by decide) (by decide)⟩

/-- C8. Claim: invariant 1 holds after any sequence of Insert and Remove calls.
On the code: Insert `"ab"`, `"c"`, `"a"` leaves the root with the sibling
labels `"ab"` and `"a"`, which share the prefix `"a"`: the third call has
`len("a") = 1 < 2` children, probes only the exact key `"a"`, and adds it. -/
theorem insert_probe_breaks_inv1 :
    runWith Order.stored Set.zero [insert (bytes "ab"), insert (bytes "c"), insert (bytes "a")]
        = some (.mk [(bytes "ab", .mk [] 1), (bytes "c", .mk [] 1), (bytes "a", .mk [] 1)] 0)
    ∧ Set.inv1 (.mk [(bytes "ab", .mk [] 1), (bytes "c", .mk [] 1), (bytes "a", .mk [] 1)] 0)
        = false
    ∧ prefixLen (bytes "ab") (bytes "a") = 1 := by
  refine ⟨rfl, by decide, by decide⟩

/-- C9. Claim: after any sequence of Insert and Remove calls no node other
than the root is empty. On the code: Insert `"ab"`, `"ac"`, then Remove `"ab"`,
`"ac"` leaves the split node `"a"` in the tree with count 0 and no children:
`remove` detaches the node it emptied, not the parent that became empty as a
result. -/
theorem remove_leaves_empty_node :
    runWith Order.stored Set.zero
        [insert (bytes "ab"), insert (bytes "ac"), remove (bytes "ab"), remove (bytes "ac")]
        = some (.mk [(bytes "a", .mk [] 0)] 0)
    ∧ Set.empty (.mk [] 0) = true
    ∧ Set.noEmptyBelow (.mk [(bytes "a", .mk [] 0)] 0) = false := by
  refine ⟨rfl, by decide, by decide⟩

/-- C10. Claim: after `A.Merge(B)` every multiplicity in `A` is the sum of the
two. On the code: with `A = B = {"x"}` the receiver is unchanged and the
multiplicity of `"x"` stays 1; with `A = {"y"}`, `B = {"x"}` the receiver is
unchanged and `Contains("x")` is false on `A` though true on `B`. -/
theorem merge_adds_nothing :
    (Merge Order.stored (runWith Order.stored Set.zero [insert (bytes "x")])
        (runWith Order.stored Set.zero [insert (bytes "x")]))
        = some (some (.mk [(bytes "x", .mk [] 1)] 0))
    ∧ Set.mult (.mk [(bytes "x", .mk [] 1)] 0) (bytes "x") = 1
    ∧ (Merge Order.stored (runWith Order.stored Set.zero [insert (bytes "y")])
        (runWith Order.stored Set.zero [insert (bytes "x")]))
        = some (some (.mk [(bytes "y", .mk [] 1)] 0))
    ∧ Contains Order.stored (.mk [(bytes "x", .mk [] 1)] 0) (bytes "x") = some true
    ∧ Contains Order.stored (.mk [(bytes "y", .mk [] 1)] 0) (bytes "x") = some false := by
  refine ⟨rfl, by decide, rfl, by decide, by decide⟩

/-- C11. For every Set whose children maps have distinct keys, every string
`s` and every iteration order, `Remove(s)` returns, and:
* if it returns a node `nd`, then `nd` is empty and is a node of the tree, at
  some path `q`, that was not empty before the call, with its count
  decremented; when `q` is empty the receiver itself is that node, otherwise
  the last edge of `q` has been deleted from the children of its parent, so
  that `q` no longer leads anywhere;
* if it returns nil, every node that was not empty before the call is still at
  its path and still not empty, so no node was turned into an empty one. -/
theorem remove_return_value (ord : Order) (hord : ord.Valid) (a : Set) (s : Str)
    (hk : a.keysDistinct = true) :
    ∃ r, Remove ord a s = some r ∧
      (∀ nd, r.old = some nd → nd.empty = true ∧
        ∃ q n0, a.nodeAt q = some n0 ∧ n0.empty = false
          ∧ nd = .mk n0.children (n0.count - 1) ∧
          (q = [] → r.node = nd) ∧
          (∀ q1 k, q = q1 ++ [k] →
            ∃ parent, a.nodeAt q1 = some parent ∧
              r.node.nodeAt q1 = some (.mk (deleteChild parent.children k) parent.count) ∧
              r.node.nodeAt q = none))
      ∧ (r.old = none →
        ∀ q n0, a.nodeAt q = some n0 → n0.empty = false →
          ∃ n1, r.node.nodeAt q = some n1 ∧ n1.empty = false) := by
  have htot := removeAux_total ord (s.length + 1) a s (Nat.lt_succ_self _)
  cases hr : removeAux ord (s.length + 1) a s with
  | none => rw [hr] at htot; cases htot
  | some r =>
    obtain ⟨h1, h2⟩ := removeAux_returns hord _ a s r hk hr
    refine ⟨r, hr, fun nd hn => ?_, fun hn => (h2 hn).2⟩
    obtain ⟨hemp, q, n0, hq, hpos, hnd, hroot, hpar⟩ := h1 nd hn
    refine ⟨hemp, q, n0, hq, empty_false_of_count_pos n0 hpos, hnd,
      (fun e => (hroot e).1), ?_⟩
    intro q1 k e
    obtain ⟨_, parent, hp1, hp2⟩ := hpar q1 k e
    refine ⟨parent, hp1, hp2, ?_⟩
    rw [e, nodeAt_append_singleton, hp2, Option.some_bind, children_mk,
      getChild_deleteChild_self]

/-- C11, at a concrete input: removing `"abd"` from the tree of `"abc"` and
`"abd"` returns the leaf below the edge `"d"`. -/
theorem remove_return_value_witness :
    Order.stored.Valid
    ∧ (Set.mk [(bytes "ab", .mk [(bytes "c", .mk [] 1), (bytes "d", .mk [] 1)] 0)] 0).keysDistinct
        = true
    ∧ ∃ r, Remove Order.stored
          (Set.mk [(bytes "ab", .mk [(bytes "c", .mk [] 1), (bytes "d", .mk [] 1)] 0)] 0)
          (bytes "abd") = some r ∧
      (∀ nd, r.old = some nd → nd.empty = true ∧
        ∃ q n0,
          (Set.mk [(bytes "ab", .mk [(bytes "c", .mk [] 1), (bytes "d", .mk [] 1)] 0)] 0).nodeAt q
            = some n0 ∧ n0.empty = false
          ∧ nd = .mk n0.children (n0.count - 1) ∧
          (q = [] → r.node = nd) ∧
          (∀ q1 k, q = q1 ++ [k] →
            ∃ parent,
              (Set.mk [(bytes "ab", .mk [(bytes "c", .mk [] 1), (bytes "d", .mk [] 1)] 0)]
                0).nodeAt q1 = some parent ∧
              r.node.nodeAt q1 = some (.mk (deleteChild parent.children k) parent.count) ∧
              r.node.nodeAt q = none))
      ∧ (r.old = none →
        ∀ q n0,
          (Set.mk [(bytes "ab", .mk [(bytes "c", .mk [] 1), (bytes "d", .mk [] 1)] 0)] 0).nodeAt q
            = some n0 → n0.empty = false →
          ∃ n1, r.node.nodeAt q = some n1 ∧ n1.empty = false) :=
  ⟨Order.stored_valid, by decide,
    remove_return_value Order.stored Order.stored_valid _ _ (by decide)⟩

/-- C12, as stated for any finite sequence of calls, fails once a count has
been incremented past the largest `int`: `2^63` calls of `Insert("")` on an
empty Set leave the root with count `minInt`, which is negative. -/
theorem counts_never_negative_counterexample :
    Order.stored.Valid
    ∧ runCalls Set.zero (List.replicate 9223372036854775808 (Order.stored, Call.insert []))
        = some (.mk [] minInt)
    ∧ (Set.mk [] minInt).countsNonneg = false :=
  ⟨Order.stored_valid,
    runCalls_insert_nil_wraps Order.stored [] 9223372036854775808 0 (by decide) (by decide)
      (by decide),
    by decide⟩

/-- C12, amended. After any finite sequence of `Insert`, `Remove` and `Merge`
calls on an empty Set that holds at most `maxInt` (`2^63 - 1`) calls of
`Insert`, under any iteration orders, the calls all return and no node of the
resulting tree has a negative count. `Remove` lowers a count only under the
guard `count > 0`, so calls for strings that are absent or already fully
removed are covered: they are part of the arbitrary sequence. -/
theorem counts_never_negative (calls : List (Order × Call))
    (hv : ∀ c ∈ calls, c.1.Valid)
    (hfew : ((calls.countP (fun c => c.2.isInsert) : Nat) : Int) ≤ maxInt) :
    ∃ a, runCalls Set.zero calls = some a ∧ a.countsNonneg = true := by
  obtain ⟨a, h1, h2⟩ := runCalls_within calls Set.zero 1 hv (by decide) (by decide)
    (by omega)
  exact ⟨a, h1, countsNonneg_of_within a.height a (le_refl _) h2⟩

/-- C12, at a concrete input: one insert, two removes of the same string, a
remove of a string never inserted, and a merge. -/
theorem counts_never_negative_witness :
    (∀ c ∈ [(Order.stored, Call.insert (bytes "a")), (Order.reversed, Call.remove (bytes "a")),
          (Order.stored, Call.remove (bytes "a")), (Order.stored, Call.remove (bytes "zz")),
          (Order.reversed, Call.merge (some (.mk [(bytes "a", .mk [] 1)] 0)))],
        c.1.Valid)
    ∧ (([(Order.stored, Call.insert (bytes "a")), (Order.reversed, Call.remove (bytes "a")),
          (Order.stored, Call.remove (bytes "a")), (Order.stored, Call.remove (bytes "zz")),
          (Order.reversed, Call.merge (some (.mk [(bytes "a", .mk [] 1)] 0)))].countP
            (fun c => c.2.isInsert) : Nat) : Int) ≤ maxInt
    ∧ ∃ a, runCalls Set.zero
          [(Order.stored, Call.insert (bytes "a")), (Order.reversed, Call.remove (bytes "a")),
            (Order.stored, Call.remove (bytes "a")), (Order.stored, Call.remove (bytes "zz")),
            (Order.reversed, Call.merge (some (.mk [(bytes "a", .mk [] 1)] 0)))] = some a
        ∧ a.countsNonneg = true := by
  have hv : ∀ c ∈ [(Order.stored, Call.insert (bytes "a")),
      (Order.reversed, Call.remove (bytes "a")), (Order.stored, Call.remove (bytes "a")),
      (Order.stored, Call.remove (bytes "zz")),
      (Order.reversed, Call.merge (some (.mk [(bytes "a", .mk [] 1)] 0)))], c.1.Valid := by
    intro c hc
    simp only [List.mem_cons, List.mem_singleton, List.not_mem_nil, or_false] at hc
    rcases hc with rfl | rfl | rfl | rfl | rfl
    · exact Order.stored_valid
    · exact Order.reversed_valid
    · exact Order.stored_valid
    · exact Order.stored_valid
    · exact Order.reversed_valid
  exact ⟨hv, by decide, counts_never_negative _ hv (by decide)⟩

/-- C13. Edge split: for all non-empty `p`, `x`, `y` with `x` and `y` differing
in their first byte and all iteration orders, `Insert(p+x)` then `Insert(p+y)`
on an empty Set yields a root of count 0 whose only child is keyed `p`; that
child has count 0 and exactly the two children `x` and `y`, each a leaf of
count 1. On this tree `Contains(p)` is false and `Contains(p+x)`,
`Contains(p+y)` are true. -/
theorem edge_split (ord1 ord2 ord3 : Order) (h1 : ord1.Valid) (h2 : ord2.Valid)
    (h3 : ord3.Valid) (p x y : Str) (hp : p ≠ []) (hx : x ≠ []) (hy : y ≠ [])
    (hxy : x.head? ≠ y.head?) :
    (Insert ord1 Set.zero (p ++ x)).bind (fun t => Insert ord2 t (p ++ y))
      = some (.mk [(p, .mk [(x, .mk [] 1), (y, .mk [] 1)] 0)] 0)
    ∧ Contains ord3 (.mk [(p, .mk [(x, .mk [] 1), (y, .mk [] 1)] 0)] 0) p = some false
    ∧ Contains ord3 (.mk [(p, .mk [(x, .mk [] 1), (y, .mk [] 1)] 0)] 0) (p ++ x) = some true
    ∧ Contains ord3 (.mk [(p, .mk [(x, .mk [] 1), (y, .mk [] 1)] 0)] 0) (p ++ y)
        = some true := by
  have hyx : prefixLen y x = 0 := prefixLen_eq_zero_of_head hxy
  have hxy0 : prefixLen x y = 0 := by rw [prefixLen_comm]; exact hyx
  refine ⟨?_, ?_, ?_, ?_⟩
  · rw [insert_zero h1 (p ++ x) (by simp [hp]), Option.some_bind]
    exact insert_split h2 p x y hp hx hy hxy
  · rw [Contains_step h3 hp (List.prefix_refl p) (onlyMatch_singleton _ _ _), List.drop_length,
      Contains_nil]
    rfl
  · rw [Contains_step h3 hp (List.prefix_append p x) (onlyMatch_singleton _ _ _),
      List.drop_left,
      Contains_step h3 hx (List.prefix_refl x) (onlyMatch_pair_left _ _ hyx),
      List.drop_length, Contains_nil]
    rfl
  · rw [Contains_step h3 hp (List.prefix_append p y) (onlyMatch_singleton _ _ _),
      List.drop_left,
      Contains_step h3 hy (List.prefix_refl y) (onlyMatch_pair_right _ _ hxy0),
      List.drop_length, Contains_nil]
    rfl

/-- C13, at the spec's input: `"abc" + "def"` and `"abc" + "xyz"`. -/
theorem edge_split_witness :
    Order.stored.Valid ∧ Order.reversed.Valid
    ∧ bytes "abc" ≠ [] ∧ bytes "def" ≠ [] ∧ bytes "xyz" ≠ []
    ∧ (bytes "def").head? ≠ (bytes "xyz").head?
    ∧ (Insert Order.stored Set.zero (bytes "abc" ++ bytes "def")).bind
          (fun t => Insert Order.reversed t (bytes "abc" ++ bytes "xyz"))
        = some (.mk [(bytes "abc",
            .mk [(bytes "def", .mk [] 1), (bytes "xyz", .mk [] 1)] 0)] 0)
    ∧ Contains Order.reversed (.mk [(bytes "abc",
          .mk [(bytes "def", .mk [] 1), (bytes "xyz", .mk [] 1)] 0)] 0) (bytes "abc")
        = some false
    ∧ Contains Order.reversed (.mk [(bytes "abc",
          .mk [(bytes "def", .mk [] 1), (bytes "xyz", .mk [] 1)] 0)] 0)
          (bytes "abc" ++ bytes "def") = some true
    ∧ Contains Order.reversed (.mk [(bytes "abc",
          .mk [(bytes "def", .mk [] 1), (bytes "xyz", .mk [] 1)] 0)] 0)
          (bytes "abc" ++ bytes "xyz") = some true :=
  ⟨Order.stored_valid, Order.reversed_valid, by decide, by decide, by decide, by decide,
    edge_split Order.stored Order.reversed Order.reversed Order.stored_valid
      Order.reversed_valid Order.reversed_valid _ _ _ (by decide) (by decide) (by decide)
      (by decide)⟩

/-- C14. For every Set that satisfies invariant 1 at every node, every string
`s` and every iteration order, `Insert(s)` returns and the number of nodes of
the resulting tree is the number before plus 0, plus 1 or plus 2: never more
and never less. A split contributes one intermediate node and at most one new
leaf: whenever the path `ks` of non-empty labels spells a prefix of `s` and
leads to a node `nd` that has no more children than the rest `t` of `s` has
bytes (so that the range loop runs there) and an edge `p` sharing with `t` a
non-empty proper part `p[:n]` of its label, then after the call `nd` has the
edge `p[:n]` in place of `p`, leading to a new node that keeps the old child
under `p[n:]` and has one new leaf of count 1 under `t[n:]` when `t[n:]` is
not empty (otherwise it has count 1 itself); the tree has grown by 1 node in
the latter case and by 2 in the former. -/
theorem insert_node_count (ord : Order) (hord : ord.Valid) (a : Set) (s : Str)
    (hinv : a.inv1 = true) :
    ∃ a1, Insert ord a s = some a1 ∧
      (a1.size = a.size ∨ a1.size = a.size + 1 ∨ a1.size = a.size + 2) ∧
      ∀ (ks : List Str) (nd : Set) (t p : Str) (c : Set),
        (∀ k ∈ ks, k ≠ []) → a.nodeAt ks = some nd → s = ks.flatten ++ t →
        ¬ t.length < nd.children.length → (p, c) ∈ nd.children →
        0 < prefixLen t p → prefixLen t p < p.length →
        a1.nodeAt ks = some (.mk (putChild (deleteChild nd.children p)
            (p.take (prefixLen t p))
            (if t.drop (prefixLen t p) = [] then .mk [(p.drop (prefixLen t p), c)] 1
             else .mk [(p.drop (prefixLen t p), c), (t.drop (prefixLen t p), .mk [] 1)] 0))
            nd.count)
        ∧ a1.size = a.size + (if t.drop (prefixLen t p) = [] then 1 else 2) := by
  obtain ⟨a1, h, hlo, hhi⟩ := insertAux_size hord (s.length + 1) a s (Nat.lt_succ_self _) hinv
  refine ⟨a1, h, by omega, ?_⟩
  intro ks nd t p c hks hnd hs hlen hmem h0 hsplit
  subst hs
  obtain ⟨a2, h2, hat, hsz⟩ := insertAux_split_at hord nd t p c hlen hmem h0 hsplit ks
    ((ks.flatten ++ t).length + 1) a (Nat.lt_succ_self _) hinv hks hnd
  have e : a2 = a1 := Option.some.inj (h2.symm.trans h)
  subst e
  exact ⟨hat, hsz⟩

/-- C14, at a concrete input: inserting `"abd"` into the tree of `"abc"` and
`"x"` (three nodes) splits the edge `"abc"` at the root: the root gets the
edge `"ab"` to a new node of count 0 with the old leaf under `"c"` and a new
leaf under `"d"`, and the tree has five nodes. -/
theorem insert_node_count_witness :
    Order.stored.Valid
    ∧ (Set.mk [(bytes "abc", .mk [] 1), (bytes "x", .mk [] 1)] 0).inv1 = true
    ∧ (Set.mk [(bytes "abc", .mk [] 1), (bytes "x", .mk [] 1)] 0).size = 3
    ∧ ∃ a1, Insert Order.stored
          (Set.mk [(bytes "abc", .mk [] 1), (bytes "x", .mk [] 1)] 0) (bytes "abd") = some a1 ∧
        (a1.size = (Set.mk [(bytes "abc", .mk [] 1), (bytes "x", .mk [] 1)] 0).size
          ∨ a1.size = (Set.mk [(bytes "abc", .mk [] 1), (bytes "x", .mk [] 1)] 0).size + 1
          ∨ a1.size = (Set.mk [(bytes "abc", .mk [] 1), (bytes "x", .mk [] 1)] 0).size + 2) ∧
        a1.nodeAt [] = some (.mk [(bytes "x", .mk [] 1),
            (bytes "ab", .mk [(bytes "c", .mk [] 1), (bytes "d", .mk [] 1)] 0)] 0) ∧
        a1.size = 5 := by
  refine ⟨Order.stored_valid, by decide, by decide, ?_⟩
  obtain ⟨a1, h, hb, hsplit⟩ := insert_node_count Order.stored Order.stored_valid
    (Set.mk [(bytes "abc", .mk [] 1), (bytes "x", .mk [] 1)] 0) (bytes "abd") (by decide)
  have hs := hsplit [] (Set.mk [(bytes "abc", .mk [] 1), (bytes "x", .mk [] 1)] 0)
    (bytes "abd") (bytes "abc") (.mk [] 1) (by simp) rfl rfl (by decide)
    (List.mem_cons_self _ _) (by decide) (by decide)
  exact ⟨a1, h, hb, hs.1, hs.2⟩

/-- C15. Fast/slow equivalence for lookup: for every Set with invariant 1 at
every node, every string `s`, every threshold `n` and all iteration orders
(one for each side), `containsAtLeast(s, n)` returns what the reference
lookup returns that searches every node with the range loop only. -/
theorem containsAtLeast_eq_scan (ord1 ord2 : Order) (h1 : ord1.Valid) (h2 : ord2.Valid)
    (a : Set) (s : Str) (n : Int) (hinv : a.inv1 = true) :
    containsAtLeast ord1 a s n = scanContainsAtLeast ord2 a s n
    ∧ (containsAtLeast ord1 a s n).isSome = true :=
  ⟨containsAux_eq_scan h1 h2 _ a s n hinv, containsAux_total ord1 _ a s n (Nat.lt_succ_self _)⟩

/-- C15, at a concrete input: the root has three children and `"ca"` is
shorter, so the probe branch runs before the range loop. -/
theorem containsAtLeast_eq_scan_witness :
    Order.stored.Valid ∧ Order.reversed.Valid
    ∧ (Set.mk [(bytes "car", .mk [] 1), (bytes "dog", .mk [] 1), (bytes "x", .mk [] 1)] 0).inv1
        = true
    ∧ (containsAtLeast Order.stored
          (.mk [(bytes "car", .mk [] 1), (bytes "dog", .mk [] 1), (bytes "x", .mk [] 1)] 0)
          (bytes "ca") 1
        = scanContainsAtLeast Order.reversed
          (.mk [(bytes "car", .mk [] 1), (bytes "dog", .mk [] 1), (bytes "x", .mk [] 1)] 0)
          (bytes "ca") 1
      ∧ (containsAtLeast Order.stored
          (.mk [(bytes "car", .mk [] 1), (bytes "dog", .mk [] 1), (bytes "x", .mk [] 1)] 0)
          (bytes "ca") 1).isSome = true) :=
  ⟨Order.stored_valid, Order.reversed_valid, by decide,
    containsAtLeast_eq_scan Order.stored Order.reversed Order.stored_valid
      Order.reversed_valid _ _ 1 (by decide)⟩

/-- C16. Claim: for a tree with invariant 1 and a non-empty `s` shorter than
the number of children, the substring-probe branch of `Insert` and the
linear-scan branch produce the same tree. On the code: for the tree of
`"ab"` and `"c"` (invariant 1 holds) and `s = "a"`, `Insert` adds `"a"` as a
third child of the root, while the linear-scan branch splits `"ab"` into
`"a" -> "b"` and counts `"a"` at the new node; the results differ (three
children against two). -/
theorem insert_probe_differs_from_scan :
    runWith Order.stored Set.zero [insert (bytes "ab"), insert (bytes "c")]
        = some (.mk [(bytes "ab", .mk [] 1), (bytes "c", .mk [] 1)] 0)
    ∧ (Set.mk [(bytes "ab", .mk [] 1), (bytes "c", .mk [] 1)] 0).inv1 = true
    ∧ (bytes "a").length < (Set.mk [(bytes "ab", .mk [] 1), (bytes "c", .mk [] 1)] 0).children.length
    ∧ Insert Order.stored (.mk [(bytes "ab", .mk [] 1), (bytes "c", .mk [] 1)] 0) (bytes "a")
        = some (.mk [(bytes "ab", .mk [] 1), (bytes "c", .mk [] 1), (bytes "a", .mk [] 1)] 0)
    ∧ scanInsert Order.stored (.mk [(bytes "ab", .mk [] 1), (bytes "c", .mk [] 1)] 0) (bytes "a")
        = some (.mk [(bytes "c", .mk [] 1), (bytes "a", .mk [(bytes "b", .mk [] 1)] 1)] 0) := by
  refine ⟨rfl, by decide, by decide, rfl, rfl⟩

/-- C17. For every Set, invariants or not, every string `s`, every threshold
and every way of ordering the children, `containsAtLeast`, `Contains`,
`Insert` and `Remove` return: each recursive call is made on `s` with at
least one byte dropped, so a budget of `len(s) + 1` visited nodes is never
exhausted. -/
theorem operations_return (ord : Order) (a : Set) (s : Str) (n : Int) :
    (containsAtLeast ord a s n).isSome = true
    ∧ (Contains ord a s).isSome = true
    ∧ (Insert ord a s).isSome = true
    ∧ (Remove ord a s).isSome = true :=
  ⟨containsAux_total ord _ a s n (Nat.lt_succ_self _),
    containsAux_total ord _ a s 1 (Nat.lt_succ_self _),
    insertAux_total ord _ a s (Nat.lt_succ_self _),
    removeAux_total ord _ a s (Nat.lt_succ_self _)⟩

/-- C18. `prefixLen(s1, s2)` is the length of the longest common prefix: it is
at most both lengths, the two strings agree on that many bytes, and every `k`
within both lengths on which they agree is at most `prefixLen`; it is
symmetric; and it is positive exactly when both strings are non-empty and
start with the same byte. -/
theorem prefixLen_longest_common (s1 s2 : Str) :
    prefixLen s1 s2 ≤ min s1.length s2.length
    ∧ s1.take (prefixLen s1 s2) = s2.take (prefixLen s1 s2)
    ∧ (∀ k, k ≤ min s1.length s2.length → s1.take k = s2.take k → k ≤ prefixLen s1 s2)
    ∧ prefixLen s1 s2 = prefixLen s2 s1
    ∧ (0 < prefixLen s1 s2 ↔ s1 ≠ [] ∧ s2 ≠ [] ∧ s1.head? = s2.head?) := by
  refine ⟨Nat.le_min.mpr ⟨prefixLen_le_left s1 s2, prefixLen_le_right s1 s2⟩,
    take_prefixLen s1 s2, ?_, prefixLen_comm s1 s2, ?_⟩
  · intro k hk h
    have := Nat.le_min.mp hk
    exact le_prefixLen_of_take_eq s1 s2 k this.1 this.2 h
  · rw [prefixLen_pos_iff]
    constructor
    · rintro ⟨a, t1, t2, rfl, rfl⟩
      simp
    · rintro ⟨h1, h2, h3⟩
      cases s1 with
      | nil => exact absurd rfl h1
      | cons a t1 =>
        cases s2 with
        | nil => exact absurd rfl h2
        | cons b t2 =>
          simp only [List.head?_cons, Option.some.injEq] at h3
          exact ⟨a, t1, t2, rfl, by rw [h3]⟩

/-- C19. For all Sets `a` and `other`, either of which may be nil, and every
iteration order, `a.Merge(other)` returns and leaves the receiver exactly as
it was: no count and no children map of `a` changes (`other` is only read by
the code: no statement of `Merge` writes through it). The association lists
of the receiver are assumed to stand for Go maps (distinct keys). -/
theorem merge_changes_nothing (ord : Order) (hord : ord.Valid) (a other : Option Set)
    (hmap : a.all Set.keysDistinct = true) : Merge ord a other = some a :=
  mergeAux_id hord _ a other (Nat.lt_succ_self _) hmap

/-- C19, at a concrete input: both trees hold `"x"`, with different counts. -/
theorem merge_changes_nothing_witness :
    Order.reversed.Valid
    ∧ (some (Set.mk [(bytes "x", .mk [] 1)] 2)).all Set.keysDistinct = true
    ∧ Merge Order.reversed (some (.mk [(bytes "x", .mk [] 1)] 2))
          (some (.mk [(bytes "x", .mk [(bytes "y", .mk [] 5)] 4)] 7))
        = some (some (.mk [(bytes "x", .mk [] 1)] 2)) :=
  ⟨Order.reversed_valid, by decide,
    merge_changes_nothing Order.reversed Order.reversed_valid _ _ (by decide)⟩

/-- C20. For every Set, every non-empty string `s`, every iteration order and
all thresholds `n` and `m`, `containsAtLeast(s, n) = containsAtLeast(s, m)`,
and both equal `Contains(s)`: the threshold is compared with a count only
when `s` is empty. -/
theorem containsAtLeast_threshold_unused (ord : Order) (a : Set) (s : Str) (n m : Int)
    (hs : s ≠ []) :
    containsAtLeast ord a s n = containsAtLeast ord a s m
    ∧ containsAtLeast ord a s n = Contains ord a s := by
  simp only [containsAtLeast, Contains, containsAux, hs, if_false, and_self]

/-- C20, at a concrete input: thresholds 5 and -3 on the tree of `"test"`. -/
theorem containsAtLeast_threshold_unused_witness :
    bytes "test" ≠ []
    ∧ containsAtLeast Order.stored (.mk [(bytes "test", .mk [] 1)] 0) (bytes "test") 5
        = containsAtLeast Order.stored (.mk [(bytes "test", .mk [] 1)] 0) (bytes "test") (-3)
    ∧ containsAtLeast Order.stored (.mk [(bytes "test", .mk [] 1)] 0) (bytes "test") 5
        = Contains Order.stored (.mk [(bytes "test", .mk [] 1)] 0) (bytes "test") :=
  ⟨by decide,
    containsAtLeast_threshold_unused Order.stored _ _ 5 (-3) (by decide)⟩

end Trie
